import Mathlib

/-!
Verification development for the `code_agent` repository
(code index building, tool-layer search, and memory store).

The Python sources are shallowly embedded:
  * filesystem paths are modelled as lists of components of an absolute
    path (`/a/b/c` is `["a","b","c"]`);
  * the filesystem is an explicit tree value carrying per-file metadata
    (size, stat/open success, line content, optional symlink target);
  * Python floats used only as relevance scores are modelled by exact
    rationals (no claim here depends on binary rounding);
  * Python `sort` (Timsort) is modelled by a stable insertion sort;
  * fallible operations return `Except`.
Every definition follows the corresponding function in
`src/code_agent/code_index.py`, `src/code_agent/tools.py` or
`src/code_agent/memory.py`; spec-modelled comparison definitions are
named with a `spec` prefix.
-/

namespace CodeAgent

/-! ## Path model

Absolute paths are lists of components.  `normPath` mirrors what
`os.path.abspath` does to an already-rooted path: it removes `""`, `"."`
and resolves `".."` lexically (no symlink resolution). -/

def normPath (comps : List String) : List String :=
  comps.foldl
    (fun acc c =>
      if c = "" ∨ c = "." then acc
      else if c = ".." then acc.dropLast
      else acc ++ [c]) []

/-- Split a string on a separator character (kernel-computable
`str.split(sep)`). -/
def splitOnCharGo (sep : Char) (cur : List Char) : List Char → List String
  | [] => [String.mk cur.reverse]
  | c :: rest =>
    if c = sep then String.mk cur.reverse :: splitOnCharGo sep [] rest
    else splitOnCharGo sep (c :: cur) rest

def splitOnChar (sep : Char) (s : String) : List String :=
  splitOnCharGo sep [] s.toList

/-- Split a slash-separated path string into components. -/
def splitPath (s : String) : List String :=
  (splitOnChar '/' s).filter (fun c => c ≠ "")

/-- `os.path.isabs` on a path string. -/
def isAbsStr (s : String) : Bool :=
  match s.toList with
  | '/' :: _ => true
  | _ => false

/-- `os.path.join(root, s)` followed by `os.path.abspath`, for an
absolute component-list `root` and a path string `s`. -/
def pyJoinAbs (root : List String) (s : String) : List String :=
  if isAbsStr s then normPath (splitPath s)
  else normPath (root ++ splitPath s)

/-- The boundary test used throughout the sources:
`path == root or path.startswith(root + os.sep)` on component lists. -/
def isWithin (root p : List String) : Bool :=
  p = root ∨ root <+: p

/-- `os.path.relpath(path, root)` restricted to the cases the code
reaches: result components, `".."` entries first when `path` is not
below `root`. -/
def pyRelpath (p root : List String) : List String :=
  if root <+: p then
    (if p = root then ["."] else p.drop root.length)
  else
    (List.replicate (root.length - (commonPrefixLen root p)) "..")
      ++ p.drop (commonPrefixLen root p)
where
  commonPrefixLen : List String → List String → Nat
    | a :: as, b :: bs => if a = b then 1 + commonPrefixLen as bs else 0
    | _, _ => 0

/-! ## Stable sort (model of Python `list.sort`)

`keep e x = true` means an already-placed element `e` stays in front of
the newly inserted `x`; processing the input left to right with this
insertion is stable, like Timsort. -/

def sInsert (keep : α → α → Bool) (x : α) : List α → List α
  | [] => [x]
  | e :: es => if keep e x then e :: sInsert keep x es else x :: e :: es

def sSort (keep : α → α → Bool) (l : List α) : List α :=
  l.foldl (fun acc x => sInsert keep x acc) []

/-- Descending stable sort by a rational-valued key (Python
`sort(key=…, reverse=True)`). -/
def sortDescQ (key : α → ℚ) (l : List α) : List α :=
  sSort (fun e x => decide (key x ≤ key e)) l

/-- Ascending stable sort by a natural-valued key (Python
`sort(key=…)`). -/
def sortAscN (key : α → Nat) (l : List α) : List α :=
  sSort (fun e x => decide (key e ≤ key x)) l

/-- Descending stable sort by a natural-valued key (Python
`sorted(…, reverse=True)`, which is also stable). -/
def sortDescN (key : α → Nat) (l : List α) : List α :=
  sSort (fun e x => decide (key x ≤ key e)) l

/-- Descending stable sort by an integer-valued key. -/
def sortDescI (key : α → Int) (l : List α) : List α :=
  sSort (fun e x => decide (key x ≤ key e)) l

/-! ## Identifier extraction (`CodeIndex._extract_identifiers`)

The Python regex `[A-Za-z_][A-Za-z0-9_\-]{2,}` is embedded as a
left-to-right, leftmost, greedy scanner over the character list:
at a position whose char is in the start class, the maximal run of
continuation chars is taken; it is a match iff at least two follow,
otherwise the scan advances one position (exactly `re.findall`
semantics for this pattern).  The scanner is written with explicit
fuel so it computes by `rfl`/`decide`; `fuel = length` suffices as
every step consumes at least one character. -/

def isIdentStart (c : Char) : Bool :=
  ('A' ≤ c ∧ c ≤ 'Z') ∨ ('a' ≤ c ∧ c ≤ 'z') ∨ c = '_'

def isIdentCont (c : Char) : Bool :=
  isIdentStart c ∨ ('0' ≤ c ∧ c ≤ '9') ∨ c = '-'

def scanGo : Nat → List Char → List (List Char)
  | 0, _ => []
  | _, [] => []
  | fuel + 1, c :: rest =>
    if isIdentStart c then
      let tok := rest.takeWhile isIdentCont
      if 2 ≤ tok.length then
        (c :: tok) :: scanGo fuel (rest.dropWhile isIdentCont)
      else scanGo fuel rest
    else scanGo fuel rest

def scanIdentTokens (l : List Char) : List (List Char) :=
  scanGo l.length l

/-- Lower-case a raw token (Python `t.lower()`; all token characters
are ASCII by construction). -/
def lowerStr (t : List Char) : String :=
  String.mk (t.map Char.toLower)

/-- The stop set of `_extract_identifiers`. -/
def stopWords : List String :=
  ["the", "and", "for", "with", "from", "that", "this", "else", "true",
   "false", "null", "none",
   "return", "class", "def", "func", "function", "var", "let", "const",
   "import", "export", "public", "private", "protected",
   "if", "elif", "while", "switch", "case", "break",
   "continue", "try", "except", "catch", "finally", "new", "static"]

/-- One step of the Python dict update `freq[t] = freq.get(t, 0) + 1`
on an insertion-ordered association list. -/
def freqUpdate (acc : List (String × Nat)) (t : String) :
    List (String × Nat) :=
  if acc.any (fun p => p.1 = t) then
    acc.map (fun p => if p.1 = t then (p.1, p.2 + 1) else p)
  else acc ++ [(t, 1)]

def freqFold (toks : List String) : List (String × Nat) :=
  toks.foldl freqUpdate []

/-- `CodeIndex._extract_identifiers`: tokenize, lower-case, drop stop
words, count frequencies in first-seen order, stable-sort by count
descending, keep the first 20 keys. -/
def extractIdentifiers (text : String) : List String :=
  let lower := (scanIdentTokens text.toList).map lowerStr
  let freq := freqFold (lower.filter (fun t => ¬ stopWords.contains t))
  (((sortDescN (fun p => p.2) freq).take 20).map (fun p => p.1))

/-- Keep the first occurrence of every element (insertion-ordered key
set of a Python dict). -/
def dedupFirstGo (seen : List String) : List String → List String
  | [] => []
  | t :: ts =>
    if seen.contains t then dedupFirstGo seen ts
    else t :: dedupFirstGo (t :: seen) ts

def dedupFirst (l : List String) : List String := dedupFirstGo [] l

/-- The association list built by the frequency loop is the
first-occurrence key list paired with total occurrence counts. -/
def freqRep (l : List String) : List (String × Nat) :=
  (dedupFirst l).map (fun t => (t, l.count t))

/-- Spec-modelled ranking pipeline for the amended C7 claim: the
lower-cased non-stop tokens, deduplicated in first-seen order, stably
sorted by descending total frequency, first 20 kept. -/
def specAmendedIdentifiers (text : String) : List String :=
  let toks := ((scanIdentTokens text.toList).map lowerStr).filter
    (fun t => ¬ stopWords.contains t)
  (sortDescN (fun t => toks.count t) (dedupFirst toks)).take 20

/-! ## Character runs (used by the memory tokenizer and by the
spec-side reading of the original C7 claim). -/

def runsGo (p : Char → Bool) (cur : List Char) : List Char → List (List Char)
  | [] => if cur.isEmpty then [] else [cur.reverse]
  | c :: rest =>
    if p c then runsGo p (c :: cur) rest
    else if cur.isEmpty then runsGo p [] rest
    else cur.reverse :: runsGo p [] rest

def charRuns (p : Char → Bool) (l : List Char) : List (List Char) :=
  runsGo p [] l

/-- Word character as the original C7 claim reads: alphanumeric or
underscore, embedded hyphens permitted, non-Latin word characters
permitted (spec-modelled; non-ASCII codepoints count as word
characters). -/
def specClaimWordChar (c : Char) : Bool :=
  c.isAlphanum ∨ c = '_' ∨ c = '-' ∨ 127 < c.toNat

/-- The identifier extraction the original C7 claim describes
(spec-modelled): maximal runs of claim word characters of length ≥ 3,
then the same lower-case / stop-set / frequency ranking. -/
def specClaimIdentifiers (text : String) : List String :=
  let toks0 := (charRuns specClaimWordChar text.toList).filter
    (fun t => 3 ≤ t.length)
  let toks := (toks0.map lowerStr).filter (fun t => ¬ stopWords.contains t)
  (sortDescN (fun t => toks.count t) (dedupFirst toks)).take 20

/-! ## Chunk windows (`CodeIndex._build_chunks`)

The while loop over a file of `n` lines.  `step` is
`max(1, chunk_lines - max(0, chunk_overlap))`; with natural-number
parameters, `max 0 o = o`, and truncated subtraction makes
`max 1 (w - o)` agree with Python's `max(1, w - o)` for every
`o ≥ 0`.  The loop is written with fuel `n`, which suffices because
each iteration advances `start` by at least one. -/

def chunkStep (w o : Nat) : Nat := max 1 (w - o)

def chunkGo (n w o : Nat) : Nat → Nat → List (Nat × Nat)
  | 0, _ => []
  | fuel + 1, start =>
    if start < n then
      (start + 1, min n (start + w)) ::
        (if min n (start + w) = n then []
         else chunkGo n w o fuel (start + chunkStep w o))
    else []

/-- The `(startLine, endLine)` pairs emitted for a file of `n` lines. -/
def chunkWindows (n w o : Nat) : List (Nat × Nat) :=
  chunkGo n w o n 0

/-- A chunk record as written to `chunks.jsonl`. -/
structure ChunkRec where
  path : List String
  relpath : List String
  startLine : Nat
  endLine : Nat
  language : String
  preview : String
  identifiers : List String
  deriving Repr, DecidableEq

/-- `"".join(lines[start:end])` (lines keep their newline characters,
as `readlines` returns them). -/
def joinSlice (lines : List String) (start e : Nat) : String :=
  String.join ((lines.drop start).take (e - start))

/-- Python string slicing `s[:n]` (by characters). -/
def strTake (s : String) (n : Nat) : String := String.mk (s.toList.take n)

def chunkRecsGo (path relpath : List String) (lang : String)
    (lines : List String) (w o : Nat) : Nat → Nat → List ChunkRec
  | 0, _ => []
  | fuel + 1, start =>
    if start < lines.length then
      ({ path := path, relpath := relpath, startLine := start + 1,
         endLine := min lines.length (start + w), language := lang,
         preview := strTake (joinSlice lines start (min lines.length (start + w))) 300,
         identifiers := extractIdentifiers
           (joinSlice lines start (min lines.length (start + w))) } : ChunkRec) ::
        (if min lines.length (start + w) = lines.length then []
         else chunkRecsGo path relpath lang lines w o fuel (start + chunkStep w o))
    else []

/-- The chunk records `_build_chunks` emits for one text file. -/
def buildChunksFile (path relpath : List String) (lang : String)
    (lines : List String) (w o : Nat) : List ChunkRec :=
  chunkRecsGo path relpath lang lines w o lines.length 0

/-! ## Filesystem model and `CodeIndex._iter_files`

A directory tree with per-file metadata.  `real` is the target of a
symbolic link after full resolution (`none` for a regular file);
nothing in `_iter_files` ever consults it — the Python code only uses
`os.path.abspath`, which is lexical. -/

structure FileMeta where
  size : Nat
  mtime : Int
  statOk : Bool
  openOk : Bool
  lines : List String
  real : Option (List String)
  deriving Repr, DecidableEq

inductive FSTree where
  | file (meta : FileMeta)
  | dir (entries : List (String × FSTree))
  deriving Repr

def IGNORED_DIRS : List String :=
  [".git", ".hg", ".svn", ".DS_Store", "node_modules", ".venv", "venv",
   "dist", "build", "out", "__pycache__", ".idea", ".vscode", ".codeagent"]

/-- Descend from the filesystem root along path components. -/
def locate : FSTree → List String → Option FSTree
  | t, [] => some t
  | FSTree.file _, _ :: _ => none
  | FSTree.dir es, c :: cs =>
    match es.lookup c with
    | some t => locate t cs
    | none => none

/-- `os.walk(p)` restricted to what `_iter_files` consumes: the files
of each visited directory in traversal order, with the in-place
`dirnames` pruning of `IGNORED_DIRS` applied before descending.
Written with depth fuel (structural, so it computes by `rfl`); every
property proved about it holds for all fuel values, and `walkTree`
instantiates the fuel with `sizeOf`, which bounds the tree depth. -/
def walkGo : Nat → List String → FSTree → List (List String × FileMeta)
  | 0, _, _ => []
  | _ + 1, _, FSTree.file _ => []
  | fuel + 1, p, FSTree.dir es =>
    (es.filterMap (fun e =>
      match e.2 with
      | FSTree.file m => some (p ++ [e.1], m)
      | FSTree.dir _ => none))
    ++ es.flatMap (fun e =>
      match e.2 with
      | FSTree.file _ => []
      | FSTree.dir _ =>
        if IGNORED_DIRS.contains e.1 then []
        else walkGo fuel (p ++ [e.1]) e.2)

mutual
def treeSize : FSTree → Nat
  | FSTree.file _ => 1
  | FSTree.dir es => 1 + entriesSize es
def entriesSize : List (String × FSTree) → Nat
  | [] => 0
  | e :: rest => 1 + treeSize e.2 + entriesSize rest
end

def walkTree (p : List String) (t : FSTree) : List (List String × FileMeta) :=
  walkGo (treeSize t) p t

def TEXT_EXTS : List String :=
  [".py", ".ts", ".tsx", ".js", ".jsx", ".json", ".md", ".go", ".rs",
   ".java", ".kt", ".swift", ".c", ".h", ".cpp", ".hpp", ".cs", ".rb",
   ".php", ".yml", ".yaml", ".toml", ".ini", ".cfg", ".sh", ".bash",
   ".zsh", ".sql", ".csv", ".txt"]

/-- `os.path.splitext(name)[1]`: the extension starts at the last dot
that sits after the leading dots of the basename. -/
def extOf (name : String) : String :=
  let cs := name.toList
  let lead := (cs.takeWhile (fun c => c = '.')).length
  let idxs := (List.range cs.length).filter
    (fun i => cs.getD i ' ' = '.' ∧ lead ≤ i)
  match idxs.getLast? with
  | some i => String.mk (cs.drop i)
  | none => ""

def strLower (s : String) : String := String.mk (s.toList.map Char.toLower)

def extLower (name : String) : String := strLower (extOf name)

def langMap : List (String × String) :=
  [(".py", "python"), (".ts", "typescript"), (".tsx", "typescript"),
   (".js", "javascript"), (".jsx", "javascript"), (".go", "go"),
   (".rs", "rust"), (".java", "java"), (".kt", "kotlin"),
   (".swift", "swift"), (".c", "c"), (".h", "c"), (".cpp", "cpp"),
   (".hpp", "cpp"), (".cs", "csharp"), (".rb", "ruby"), (".php", "php"),
   (".yml", "yaml"), (".yaml", "yaml"), (".toml", "toml"),
   (".ini", "ini"), (".cfg", "ini"), (".sh", "shell"),
   (".bash", "shell"), (".zsh", "shell"), (".sql", "sql"),
   (".json", "json"), (".md", "markdown")]

def lstripDots (s : String) : String :=
  String.mk (s.toList.dropWhile (fun c => c = '.'))

/-- `_detect_language` (the extension of a path is the extension of
its basename). -/
def detectLanguage (name : String) : String :=
  match langMap.lookup (extLower name) with
  | some l => l
  | none => lstripDots (extLower name)

/-- A file record as written to `files.jsonl`. -/
structure FileRecord where
  path : List String
  relpath : List String
  size : Nat
  mtime : Int
  isText : Bool
  language : String
  lines : Option Nat
  deriving Repr, DecidableEq

/-- The resolved scan root of a build. -/
def resolveScope (root : List String) (scope : Option String) :
    List String :=
  match scope with
  | some s => pyJoinAbs root s
  | none => root

/-- `CodeIndex._iter_files`. -/
def iterFiles (tree : FSTree) (root : List String) (scope : Option String)
    (maxSizeMb : Nat) : List FileRecord :=
  let sp := resolveScope root scope
  let walked := match locate tree sp with
    | some t => walkTree sp t
    | none => []
  walked.filterMap (fun pm =>
    if ¬ isWithin root pm.1 then none
    else if ¬ pm.2.statOk then none
    else if maxSizeMb * 1048576 < pm.2.size then none
    else
      let name := pm.1.getLastD ""
      let isText := TEXT_EXTS.contains (extLower name)
      some { path := pm.1, relpath := pyRelpath pm.1 root,
             size := pm.2.size, mtime := pm.2.mtime, isText := isText,
             language := if isText then detectLanguage name else "binary",
             lines := if isText then
               (if pm.2.openOk then some pm.2.lines.length else none)
             else none })

/-- Full symlink resolution of an emitted path against the modelled
tree (what `os.path.realpath` would return). -/
def realOf (m : FileMeta) (path : List String) : List String :=
  m.real.getD path

/-- Shape of a walked entry: it extends the walk root and no
intermediate directory component below the walk root is deny-listed. -/
def WalkShape (p : List String) (pm : List String × FileMeta) : Prop :=
  ∃ mid name, pm.1 = p ++ mid ++ [name] ∧
    ∀ d ∈ mid, ¬ IGNORED_DIRS.contains d

/-! ## Endpoint detection (`CodeIndex._build_endpoints`)

Each Python regex is embedded as a deterministic matcher over the
character list.  `re.match` anchors at the start; `re.search` scans
left to right; an alternation of letter words followed by a
non-letter is decided by taking the maximal letter run.  `\w` is
modelled by its ASCII subset (every fixture in this development is
ASCII). -/

def isSpaceChar (c : Char) : Bool :=
  c = ' ' ∨ c = '\t' ∨ c = '\n' ∨ c = '\r' ∨ c = '\x0b' ∨ c = '\x0c'

def isWordAscii (c : Char) : Bool := isIdentStart c ∨ c.isDigit

def isQuote (c : Char) : Bool := c = '\'' ∨ c = '"'

def pyStrip (s : String) : String :=
  String.mk (((s.toList.dropWhile isSpaceChar).reverse.dropWhile
    isSpaceChar).reverse)

def pyStripChars (cs : List Char) (s : String) : String :=
  String.mk (((s.toList.dropWhile (· ∈ cs)).reverse.dropWhile
    (· ∈ cs)).reverse)

def strUpper (s : String) : String := String.mk (s.toList.map Char.toUpper)

def strContains (hay sub : String) : Bool :=
  hay.toList.tails.any (fun t => sub.toList.isPrefixOf t)

def expectLit (pat : List Char) (l : List Char) : Option (List Char) :=
  if pat.isPrefixOf l then some (l.drop pat.length) else none

/-- Greedy `+` over a character class: at least one character. -/
def takeSome (p : Char → Bool) (l : List Char) :
    Option (List Char × List Char) :=
  let tk := l.takeWhile p
  if tk.isEmpty then none else some (tk, l.dropWhile p)

/-- `[A-Za-z_][\w]*`, returning the remainder. -/
def parseIdentRem : List Char → Option (List Char)
  | [] => none
  | c :: rest => if isIdentStart c then some (rest.dropWhile isWordAscii)
    else none

def takeQuote : List Char → Option (List Char)
  | c :: rest => if isQuote c then some rest else none
  | [] => none

/-- `re.search`: try the matcher at every position, leftmost wins. -/
def searchIn (m : List Char → Option α) : List Char → Option α
  | [] => m []
  | c :: rest =>
    match m (c :: rest) with
    | some r => some r
    | none => searchIn m rest

def httpMethodsLower : List String :=
  ["get", "post", "put", "delete", "patch", "options", "head"]

/-- `@(?:[A-Za-z_][\w]*)\.(get|post|put|delete|patch|options|head)\(\s*['"]([^'"]+)['"]`
with `re.IGNORECASE`, anchored (`re.match`). -/
def matchFastapi (l : List Char) : Option (String × String) := do
  let l ← expectLit ['@'] l
  let l ← parseIdentRem l
  let l ← expectLit ['.'] l
  let (mw, l) ← takeSome (fun c => c.isAlpha) l
  if ¬ httpMethodsLower.contains (String.mk (mw.map Char.toLower)) then none
  else do
    let l ← expectLit ['('] l
    let l := l.dropWhile isSpaceChar
    let l ← takeQuote l
    let (rt, l) ← takeSome (fun c => ¬ isQuote c) l
    let _ ← takeQuote l
    some (strUpper (String.mk mw), String.mk rt)

/-- First occurrence of `methods\s*=\s*\[([^\]]+)\]` (what
`re.findall(...)[0]` yields on the rest of a route line). -/
def matchMethodsAt (l : List Char) : Option (List Char) := do
  let l ← expectLit "methods".toList l
  let l := l.dropWhile isSpaceChar
  let l ← expectLit ['='] l
  let l := l.dropWhile isSpaceChar
  let l ← expectLit ['['] l
  let (inner, l) ← takeSome (fun c => c ≠ ']') l
  let _ ← expectLit [']'] l
  some inner

def quoteChars : List Char := ['"', '\'']

/-- `@(?:[A-Za-z_][\w]*)\.route\(\s*['"]([^'"]+)['"](.*)\)` anchored,
then the `methods=[...]` extraction, split on commas, stripped of
whitespace and quotes, empties dropped, upper-cased; no `methods`
list yields the single sentinel `ANY`. -/
def matchFlask (l : List Char) : Option (String × List String) := do
  let l ← expectLit ['@'] l
  let l ← parseIdentRem l
  let l ← expectLit ".route(".toList l
  let l := l.dropWhile isSpaceChar
  let l ← takeQuote l
  let (rt, l) ← takeSome (fun c => ¬ isQuote c) l
  let l ← takeQuote l
  let k := (l.reverse.takeWhile (fun c => c ≠ ')')).length
  if k = l.length then none
  else
    let rest := l.take (l.length - k - 1)
    let methodList :=
      match searchIn matchMethodsAt rest with
      | none => ["ANY"]
      | some inner =>
        ((splitOnChar ',' (String.mk inner)).map
          (fun t => pyStripChars quoteChars (pyStrip t))).filter
            (fun t => t ≠ "") |>.map strUpper
    some (String.mk rt, methodList)

/-- `(?:path|re_path)\(\s*['"]([^'"]+)['"]\s*,\s*([^)]+)\)` at one
position (used under `re.search`). -/
def matchDjangoAt (l : List Char) : Option (String × String) := do
  let l ← (expectLit "path(".toList l).orElse
    (fun _ => expectLit "re_path(".toList l)
  let l := l.dropWhile isSpaceChar
  let l ← takeQuote l
  let (rt, l) ← takeSome (fun c => ¬ isQuote c) l
  let l ← takeQuote l
  let l := l.dropWhile isSpaceChar
  let l ← expectLit [','] l
  let l := l.dropWhile isSpaceChar
  let (h, l) ← takeSome (fun c => c ≠ ')') l
  let _ ← expectLit [')'] l
  some (String.mk rt, String.mk h)

def goMethods : List String :=
  ["GET", "POST", "PUT", "DELETE", "PATCH", "OPTIONS", "HEAD"]

/-- `\.\s*(GET|POST|PUT|DELETE|PATCH|OPTIONS|HEAD)\(\s*"([^"]+)"\s*,\s*([A-Za-z0-9_\.]+)\s*\)`
at one position (used under `re.search`). -/
def matchGoAt (l : List Char) : Option (String × String × String) := do
  let l ← expectLit ['.'] l
  let l := l.dropWhile isSpaceChar
  let (mw, l) ← takeSome (fun c => c.isUpper) l
  if ¬ goMethods.contains (String.mk mw) then none
  else do
    let l ← expectLit ['('] l
    let l := l.dropWhile isSpaceChar
    let l ← expectLit ['"'] l
    let (rt, l) ← takeSome (fun c => c ≠ '"') l
    let l ← expectLit ['"'] l
    let l := l.dropWhile isSpaceChar
    let l ← expectLit [','] l
    let l := l.dropWhile isSpaceChar
    let (h, l) ← takeSome (fun c => isWordAscii c ∨ c = '.') l
    let l := l.dropWhile isSpaceChar
    let _ ← expectLit [')'] l
    some (String.mk mw, String.mk rt, String.mk h)

def javaMappings : List (String × String) :=
  [("GetMapping", "GET"), ("PostMapping", "POST"), ("PutMapping", "PUT"),
   ("DeleteMapping", "DELETE"), ("PatchMapping", "PATCH")]

def matchValueEq (l : List Char) : Option (List Char) := do
  let l ← expectLit "value".toList l
  let l := l.dropWhile isSpaceChar
  let l ← expectLit ['='] l
  some (l.dropWhile isSpaceChar)

/-- `@((?:Get|Post|Put|Delete|Patch)Mapping)\(\s*(?:value\s*=\s*)?"([^"]*)"`
at one position (used under `re.search`). -/
def matchJavaMappingAt (l : List Char) : Option (String × String) := do
  let l ← expectLit ['@'] l
  match javaMappings.findSome? (fun pr =>
    (expectLit pr.1.toList l).map (fun rest => (pr.2, rest))) with
  | none => none
  | some (mth, l) => do
    let l ← expectLit ['('] l
    let l := l.dropWhile isSpaceChar
    let l := (matchValueEq l).getD l
    let l ← expectLit ['"'] l
    let rt := l.takeWhile (fun c => c ≠ '"')
    let l := l.dropWhile (fun c => c ≠ '"')
    let _ ← expectLit ['"'] l
    some (mth, String.mk rt)

def matchValuePart (l : List Char) : Option (String × List Char) := do
  let l ← expectLit "value".toList l
  let l := l.dropWhile isSpaceChar
  let l ← expectLit ['='] l
  let l := l.dropWhile isSpaceChar
  let l ← expectLit ['"'] l
  let rt := l.takeWhile (fun c => c ≠ '"')
  let l := l.dropWhile (fun c => c ≠ '"')
  let l ← expectLit ['"'] l
  some (String.mk rt, l)

def matchMethodPart (l : List Char) : Option (String × List Char) := do
  let l ← expectLit "method".toList l
  let l := l.dropWhile isSpaceChar
  let l ← expectLit ['='] l
  let l := l.dropWhile isSpaceChar
  let l ← expectLit "RequestMethod.".toList l
  let (mw, l) ← takeSome (fun c => c.isUpper) l
  some (String.mk mw, l)

/-- `@RequestMapping\(.*?value\s*=\s*"([^"]*)".*?method\s*=\s*RequestMethod\.([A-Z]+).*?\)`
at one position (used under `re.search`). -/
def matchReqMapAt (l : List Char) : Option (String × String) := do
  let l ← expectLit "@RequestMapping(".toList l
  let (rt, l) ← searchIn matchValuePart l
  let (mth, l) ← searchIn matchMethodPart l
  if l.any (fun c => c = ')') then some (rt, mth) else none

/-- `re.match(r"def\s+([A-Za-z_][\w]*)\(", line)`. -/
def matchDefLine (l : List Char) : Option String := do
  let l ← expectLit "def".toList l
  let (_, l) ← takeSome isSpaceChar l
  match l with
  | [] => none
  | c :: rest =>
    if isIdentStart c then
      (expectLit ['('] (rest.dropWhile isWordAscii)).map
        (fun _ => String.mk (c :: rest.takeWhile isWordAscii))
    else none

/-- `CodeIndex._find_next_def`. -/
def findNextDef (lines : List String) (start : Nat) : Option String :=
  ((lines.drop start).take 10).findSome?
    (fun ln => matchDefLine (pyStrip ln).toList)

/-- `\b([A-Za-z_][A-Za-z0-9_]*)\s*\(.*\)\s*\{?\s*$` tried at one word
boundary: after the call parenthesis the rest must end with `)`,
optionally followed by `{` and whitespace. -/
def tryJavaMethodAt (l : List Char) : Option String :=
  match l with
  | [] => none
  | c :: rest =>
    if isIdentStart c then
      let l' := rest.dropWhile isWordAscii
      match expectLit ['('] (l'.dropWhile isSpaceChar) with
      | none => none
      | some r =>
        let r1 := r.reverse.dropWhile isSpaceChar
        let r2 := match r1 with
          | '{' :: t => t.dropWhile isSpaceChar
          | _ => r1
        match r2 with
        | ')' :: _ => some (String.mk (c :: rest.takeWhile isWordAscii))
        | _ => none
    else none

def javaMethodScan : Option Char → List Char → Option String
  | _, [] => none
  | prev, c :: rest =>
    if (match prev with
        | none => true
        | some p => ¬ isWordAscii p) then
      match tryJavaMethodAt (c :: rest) with
      | some nm => some nm
      | none => javaMethodScan (some c) rest
    else javaMethodScan (some c) rest

/-- `CodeIndex._find_next_java_method`. -/
def findNextJavaMethod (lines : List String) (start : Nat) : Option String :=
  ((lines.drop start).take 20).findSome? (fun ln =>
    if strContains ln " class " then none
    else javaMethodScan none (pyStrip ln).toList)

/-- An endpoint record as written to `endpoints.jsonl`. -/
structure EndpointRec where
  path : List String
  relpath : List String
  line : Nat
  method : String
  route : String
  framework : String
  handler : Option String
  preview : String
  deriving Repr, DecidableEq

/-- `CodeIndex._preview`: two lines of context, first 300 chars. -/
def epPreview (lines : List String) (idx : Nat) : String :=
  strTake (joinSlice lines (idx - 2) (min lines.length (idx + 3))) 300

def mkEpRec (root path : List String) (lines : List String) (i : Nat)
    (method route framework : String) (handler : Option String) :
    EndpointRec :=
  { path := path, relpath := pyRelpath path root, line := i + 1,
    method := method, route := route, framework := framework,
    handler := handler, preview := epPreview lines i }

/-- The records `_build_endpoints` emits for one line of one file,
with the per-language gates and the fall-through order of the Python
loop body. -/
def endpointsForLine (root path : List String) (lang : String)
    (lines : List String) (i : Nat) (txt : String) : List EndpointRec :=
  let s := pyStrip txt
  match (if lang = "python" then matchFastapi s.toList else none) with
  | some (mth, rt) =>
    [mkEpRec root path lines i mth rt "python-fastapi" (findNextDef lines (i + 1))]
  | none =>
  match (if lang = "python" then matchFlask s.toList else none) with
  | some (rt, methodList) =>
    methodList.map (fun mtd =>
      mkEpRec root path lines i mtd rt "python-flask" (findNextDef lines (i + 1)))
  | none =>
  match (if lang = "python" ∧
      (strContains s "path(" ∨ strContains s "re_path(") then
      searchIn matchDjangoAt s.toList else none) with
  | some (rt, h) =>
    [mkEpRec root path lines i "ANY" rt "python-django" (some h)]
  | none =>
  match (if lang = "go" then searchIn matchGoAt s.toList else none) with
  | some (mth, rt, h) =>
    [mkEpRec root path lines i mth rt "go-gin" (some h)]
  | none =>
  match (if lang = "java" then searchIn matchJavaMappingAt s.toList
    else none) with
  | some (mth, rt) =>
    [mkEpRec root path lines i mth rt "java-spring"
      (findNextJavaMethod lines (i + 1))]
  | none =>
  match (if lang = "java" then searchIn matchReqMapAt s.toList else none) with
  | some (rt, mth) =>
    [mkEpRec root path lines i mth rt "java-spring"
      (findNextJavaMethod lines (i + 1))]
  | none => []

/-- Read a file's lines from the modelled tree (`None` when the open
fails and the file is skipped). -/
def fsLines (tree : FSTree) (path : List String) : Option (List String) :=
  match locate tree path with
  | some (FSTree.file m) => if m.openOk then some m.lines else none
  | _ => none

/-- `CodeIndex._build_endpoints` over the file records of
`files.jsonl`. -/
def buildEndpoints (tree : FSTree) (root : List String)
    (files : List FileRecord) : List EndpointRec :=
  files.flatMap (fun fr =>
    if ¬ fr.isText then []
    else
      match fsLines tree fr.path with
      | none => []
      | some lines =>
        lines.enum.flatMap (fun it =>
          endpointsForLine root fr.path (strLower fr.language) lines
            it.1 it.2))

/-! ## Memory store (`memory.py`)

Timestamps are modelled as parsed epoch seconds (`Option Nat`: the
JSON field may be absent).  Importance (a float in the source, always
written in steps of `0.05`) is modelled in exact hundredths as an
integer, and the fused score is kept as the integer `2000 × score`;
`memScoreQ_eq` below states the exact correspondence with the
`0.6*vec + 0.25*importance + 0.15*recency + 0.2*overlap` formula of
the source.  The `_tokenize` regex `[\\w\\u4e00-\\u9fff]+` is modelled
on its ASCII and CJK-range subset.  `retrieve_topk` is embedded on
its `faiss is None` path — the vector backend unavailable — which
forces the vector contribution to `0`, exactly the situation C5 is
about. -/

structure MemItem where
  id : String
  content : String
  tags : List String
  importance : Int
  createdAt : Option Nat
  lastUsedAt : Option Nat
  sessionId : Option String
  source : String
  deriving Repr, DecidableEq

/-- The importance float a stored hundredths value denotes. -/
def impQ (i : Int) : ℚ := (i : ℚ) / 100

def isMemWordChar (c : Char) : Bool :=
  c.isAlphanum ∨ c = '_' ∨ (0x4e00 ≤ c.toNat ∧ c.toNat ≤ 0x9fff)

/-- `_tokenize`: word/ideograph runs of the lower-cased text. -/
def memTokens (text : String) : List String :=
  (charRuns isMemWordChar (text.toList.map Char.toLower)).map String.mk

/-- `set(_tokenize(s))` with first-seen enumeration order. -/
def tokenSet (s : String) : List String := dedupFirst (memTokens s)

def collapseWsGo : Bool → List Char → List Char
  | _, [] => []
  | pw, c :: rest =>
    if isSpaceChar c then
      (if pw then collapseWsGo true rest else ' ' :: collapseWsGo true rest)
    else c :: collapseWsGo false rest

/-- `_normalize_text`: strip, lower-case, collapse whitespace runs. -/
def normalizeText (s : String) : String :=
  String.mk (collapseWsGo false (pyStrip (strLower s)).toList)

/-- `recency_score` in tenths (`1.0 ↦ 10`, `0.5 ↦ 5`, `0.1 ↦ 1`) on
the value of `it.get("lastUsedAt", it.get("createdAt", now))`. -/
def recencyT (now : Nat) (lastUsed created : Option Nat) : Int :=
  let t := (lastUsed.orElse (fun _ => created)).getD now
  let delta := now - t
  if delta ≤ 604800 then 10
  else if delta ≤ 2592000 then 5
  else 1

/-- The recency float the tenths value denotes. -/
def recQ (now : Nat) (lastUsed created : Option Nat) : ℚ :=
  (recencyT now lastUsed created : ℚ) / 10

/-- `len(q_tokens & tokens)`: distinct shared tokens. -/
def overlapCount (q c : String) : Nat :=
  ((tokenSet q).filter (fun t => (memTokens c).contains t)).length

/-- `2000 ×` the fused score with the vector backend unavailable
(`0.6*0 + 0.25*importance + 0.15*recency + 0.2*overlap`). -/
def memScoreS (now : Nat) (q : String) (it : MemItem) : Int :=
  0 + 5 * it.importance
    + 30 * recencyT now it.lastUsedAt it.createdAt
    + 400 * (overlapCount q it.content : Int)

/-- The fused score as the source's rational formula. -/
def memScoreQ (now : Nat) (q : String) (it : MemItem) : ℚ :=
  (6 : ℚ)/10 * 0 + (1 : ℚ)/4 * impQ it.importance
    + (3 : ℚ)/20 * recQ now it.lastUsedAt it.createdAt
    + (1 : ℚ)/5 * (overlapCount q it.content : ℚ)

/-- `MemoryStore.retrieve_topk` (vector backend unavailable): the
returned contents and the store after the `lastUsedAt` write pass. -/
def retrieveTopk (items : List MemItem) (q : String) (k : Nat) (now : Nat) :
    List String × List MemItem :=
  if items.isEmpty ∨ pyStrip q = "" then ([], items)
  else if tokenSet q = [] then ([], items)
  else
    let scored := items.filterMap (fun it =>
      if 0 < memScoreS now q it then some (memScoreS now q it, it.content)
      else none)
    let top := ((sortDescI Prod.fst scored).take k).map Prod.snd
    if top.isEmpty then (top, items)
    else
      (top, items.map (fun it =>
        if top.contains it.content then { it with lastUsedAt := some now }
        else it))

def candStripChars : List Char := [' ', '-', '•', '\t']

def sentenceSeps : List Char := ['。', '.', '!', '?', '；', ';']

def splitOnAnyGo (seps : List Char) (cur : List Char) :
    List Char → List String
  | [] => [String.mk cur.reverse]
  | c :: rest =>
    if seps.contains c then
      String.mk cur.reverse :: splitOnAnyGo seps [] rest
    else splitOnAnyGo seps (c :: cur) rest

/-- `MemoryStore._extract_candidates` (the `user_input` argument is
unused by the Python code too). -/
def extractCandidates (userInput finalAnswer : String) (k : Nat) :
    List String :=
  let text := pyStrip finalAnswer
  if text = "" then []
  else
    let parts := (splitOnChar '\n' text).flatMap (fun line =>
      let line := pyStrip (pyStripChars candStripChars line)
      if line = "" then []
      else (splitOnAnyGo sentenceSeps [] line.toList).filterMap (fun seg =>
        let seg := pyStrip seg
        if 6 ≤ seg.length ∧ seg.length ≤ 120 then some seg else none))
    parts.take k

def listModify (f : α → α) : Nat → List α → List α
  | _, [] => []
  | 0, x :: xs => f x :: xs
  | n + 1, x :: xs => x :: listModify f n xs

/-- The in-place dedup update: touch `lastUsedAt`, raise importance by
`0.05` (five hundredths) capped at `1.0` (`min(1.0, … + 0.05)`). -/
def bumpItem (now : Nat) (it : MemItem) : MemItem :=
  { it with lastUsedAt := some now,
            importance :=
              if it.importance + 5 ≤ 100 then it.importance + 5 else 100 }

/-- The Python dict `existing_norm` maps each normalized content to
the object of the *last* item carrying it; mutating that object
mutates the corresponding position of the `existing` list. -/
def lastIdxWithNorm (items : List MemItem) (n : String) : Option Nat :=
  match items with
  | [] => none
  | it :: rest =>
    match lastIdxWithNorm rest n with
    | some j => some (j + 1)
    | none => if normalizeText it.content = n then some 0 else none

/-- State during `add_from_turn`: what is on disk (`file`) and the
in-memory `existing` list whose objects the dict aliases. -/
structure AddState where
  file : List MemItem
  ex : List MemItem
  deriving Repr, DecidableEq

/-- One candidate of the `add_from_turn` loop.  A dedup hit mutates
the aliased item and rewrites the whole log from `existing` (losing
any append made earlier in the same call — faithful to the source);
a fresh candidate appends to the log only, seeded at importance
`0.6` (sixty hundredths). -/
def addStep (dictIdx : String → Option Nat) (now : Nat)
    (sid : Option String) (st : AddState) (c : String) : AddState :=
  let n := normalizeText c
  if n = "" then st
  else
    match dictIdx n with
    | some i =>
      let ex' := listModify (bumpItem now) i st.ex
      { file := ex', ex := ex' }
    | none =>
      let newItem : MemItem :=
        { id := "mem_" ++ toString now, content := c, tags := [],
          importance := 60, createdAt := some now,
          lastUsedAt := some now, sessionId := sid,
          source := "assistant_final_answer" }
      { file := st.file ++ [newItem], ex := st.ex }

/-- `MemoryStore.add_from_turn` (the best-effort vector upsert has no
effect on the textual log and is not modelled). -/
def addFromTurn (items : List MemItem) (userInput finalAnswer : String)
    (sid : Option String) (k : Nat) (now : Nat) : List MemItem :=
  let candidates := extractCandidates userInput finalAnswer k
  if candidates.isEmpty then items
  else
    (candidates.foldl (addStep (lastIdxWithNorm items) now sid)
      { file := items, ex := items }).file

/-! ## Tools layer (`tools.py`)

The search tools read the persisted index records and rank them.
`ensure_within_project` resolves symlinks (`os.path.realpath`) before
the boundary comparison; the realpath of the modelled filesystem is a
finite map (identity where unlisted).  Chunk scores
(`0.6*overlap + 0.4*substring`) are kept as the integer `10 × score`.
`_index_paths` builds exactly the keys `files`, `symbols`, `chunks`
and `stats`; there is no `endpoints` entry, so `endpoints_search`
passes `None` to `_load_jsonl` and `os.path.exists(None)` raises
`TypeError` on every call — the embedding returns `Except.error`
there. -/

def joinComps (cs : List String) : String :=
  match cs with
  | [] => ""
  | c :: rest => rest.foldl (fun acc d => acc ++ "/" ++ d) c

def strStartsWith (pre s : String) : Bool := pre.toList.isPrefixOf s.toList

/-- `max(1, int(top_k))` as the slice bound. -/
def capOf (topk : Int) : Nat := (if topk ≤ 1 then 1 else topk).toNat

/-- Python `//` (floor division). -/
def intFloorDiv (a b : Int) : Int := Int.fdiv a b

def intMax (a b : Int) : Int := if a ≤ b then b else a

/-- `tools.ensure_within_project` (paths in this model are absolute
component lists; `realMap` is the symlink-resolution map of the
modelled filesystem). -/
def ensureWithinProject (realMap : List String → List String)
    (proj p : List String) : Except String (List String) :=
  let absPath := realMap p
  let projR := realMap proj
  if absPath = projR ∨ projR <+: absPath then Except.ok absPath
  else Except.error "file path outside the project directory"

structure FileHit where
  path : List String
  relpath : List String
  language : String
  lines : Option Nat
  size : Nat
  deriving Repr, DecidableEq

/-- `files_search`: language / path-prefix filters, fixed score
increments for substring hits on the relative path and basename, all
survivors kept (score `0` included), stable descending sort,
`max(1, top_k)` cap. -/
def filesSearch (files : List FileRecord) (q : String)
    (lang : Option String) (pathPre : Option String) (topk : Int) :
    List FileHit :=
  let ql := strLower q
  let results := files.filterMap (fun it =>
    if lang.elim false (fun lg => strLower it.language ≠ strLower lg) then
      none
    else if pathPre.elim false
        (fun pp => ¬ strStartsWith pp (joinComps it.relpath)) then none
    else
      let rel := joinComps it.relpath
      let score : Nat :=
        if ql ≠ "" then
          (if strContains (strLower rel) ql then 1 else 0)
          + (if strContains (strLower (it.relpath.getLastD "")) ql then 1
             else 0)
        else 0
      let hit : FileHit :=
        { path := it.path, relpath := it.relpath,
          language := it.language, lines := it.lines, size := it.size }
      some (score, hit))
  ((sortDescN Prod.fst results).take (capOf topk)).map Prod.snd

/-- A symbol record of `symbols.jsonl`. -/
structure SymRec where
  path : List String
  name : String
  kind : String
  line : Nat
  language : String
  deriving Repr, DecidableEq

structure SymHit where
  path : List String
  line : Nat
  name : String
  kind : String
  language : String
  preview : String
  deriving Repr, DecidableEq

/-- The preview of a symbol hit: `context_lines` lines around the
recorded line of the re-read file, empty on read failure. -/
def symPreview (readLines : List String → Option (List String))
    (p : List String) (line ctx : Nat) : String :=
  match readLines p with
  | none => ""
  | some lines =>
    strTake (joinSlice lines (line - 1 - ctx)
      (min lines.length (line - 1 + ctx + 1))) 300

/-- The filter/collect loop of `symbols_search`; raises (propagates)
when a retained record's path fails `ensure_within_project`. -/
def symbolsCollect (realMap : List String → List String)
    (readLines : List String → Option (List String)) (proj : List String)
    (ql : String) (kind : Option String) (lang : Option String)
    (ctx : Nat) : List SymRec → Except String (List (Nat × SymHit))
  | [] => Except.ok []
  | it :: rest =>
    let nm := strLower it.name
    if ql ≠ "" ∧ ¬ strContains nm ql then
      symbolsCollect realMap readLines proj ql kind lang ctx rest
    else if kind.elim false (fun kd => strLower it.kind ≠ strLower kd) then
      symbolsCollect realMap readLines proj ql kind lang ctx rest
    else if lang.elim false
        (fun lg => strLower it.language ≠ strLower lg) then
      symbolsCollect realMap readLines proj ql kind lang ctx rest
    else
      match ensureWithinProject realMap proj it.path with
      | Except.error e => Except.error e
      | Except.ok path => do
        let tl ← symbolsCollect realMap readLines proj ql kind lang ctx rest
        let hit : SymHit :=
          { path := path, line := it.line, name := it.name,
            kind := it.kind, language := it.language,
            preview := symPreview readLines path it.line ctx }
        Except.ok ((nm.length, hit) :: tl)

/-- `symbols_search`: substring filter on the name, kind and language
filters, shorter names first (stable), `max(1, top_k)` cap.  An empty
symbol index short-circuits to an empty result. -/
def symbolsSearch (realMap : List String → List String)
    (readLines : List String → Option (List String)) (proj : List String)
    (syms : List SymRec) (name : String) (kind : Option String)
    (lang : Option String) (ctx : Nat) (topk : Int) :
    Except String (List SymHit) :=
  if syms.isEmpty then Except.ok []
  else do
    let results ← symbolsCollect realMap readLines proj (strLower name)
      kind lang ctx syms
    Except.ok (((sortAscN Prod.fst results).take (capOf topk)).map Prod.snd)

structure ChunkHit where
  path : List String
  relpath : String
  startLine : Nat
  endLine : Nat
  language : String
  preview : String
  scoreS : Nat
  deriving Repr, DecidableEq

/-- `10 ×` the chunk score `0.6*overlap + 0.4*(query in preview)`. -/
def chunkScoreS (q ql : String) (it : ChunkRec) : Nat :=
  6 * ((tokenSet q).filter (fun t => it.identifiers.contains t)).length
    + 4 * (if ql ≠ "" ∧ strContains (strLower it.preview) ql then 1 else 0)

/-- `chunks_search`: token overlap with the identifier set plus a
substring bonus, zero-score chunks dropped, stable descending sort,
`max(1, top_k)` cap.  An empty chunk index short-circuits. -/
def chunksSearch (chunks : List ChunkRec) (q : String)
    (lang : Option String) (pathPre : Option String) (topk : Int) :
    List ChunkHit :=
  if chunks.isEmpty then []
  else
    let ql := strLower q
    let results := chunks.filterMap (fun it =>
      if lang.elim false (fun lg => strLower it.language ≠ strLower lg) then
        none
      else
        let rel := joinComps it.relpath
        if pathPre.elim false (fun pp => ¬ strStartsWith pp rel) then none
        else
          let score := chunkScoreS q ql it
          if 0 < score then
            let hit : ChunkHit :=
              { path := it.path, relpath := rel,
                startLine := it.startLine, endLine := it.endLine,
                language := it.language,
                preview := strTake it.preview 300, scoreS := score }
            some (score, hit)
          else none)
    ((sortDescN Prod.fst results).take (capOf topk)).map Prod.snd

/-- `endpoints_search` without the `_index_paths` fault: method and
route-prefix filters, `2/1/1` substring score increments, stable
descending sort, `max(1, top_k)` cap. -/
def endpointsSearchBody (eps : List EndpointRec) (q : String)
    (method : Option String) (pathPre : Option String) (topk : Int) :
    List EndpointRec :=
  let ql := strLower q
  let results := eps.filterMap (fun it =>
    let rt := strLower it.route
    let hd := strLower (it.handler.getD "")
    let pv := strLower it.preview
    let m := strLower it.method
    if method.elim false (fun md => m ≠ strLower md) then none
    else if pathPre.elim false
        (fun pp => ¬ strStartsWith (strLower pp) rt) then none
    else
      let score : Nat :=
        if ql ≠ "" then
          (if strContains rt ql then 2 else 0)
          + (if strContains hd ql then 1 else 0)
          + (if strContains pv ql then 1 else 0)
        else 0
      some (score, it))
  ((sortDescN Prod.fst results).take (capOf topk)).map Prod.snd

/-- The keys `_index_paths` actually defines. -/
def indexPathKeys : List String := ["files", "symbols", "chunks", "stats"]

/-- `endpoints_search` as reachable in the source: `_index_paths` has
no `"endpoints"` key, so `p.get("endpoints")` is `None`,
`_load_jsonl(None)` calls `os.path.exists(None)` and every call
raises `TypeError` before reading anything. -/
def endpointsSearch (eps : List EndpointRec) (q : String)
    (method : Option String) (pathPre : Option String) (topk : Int) :
    Except String (List EndpointRec) :=
  if indexPathKeys.contains "endpoints" then
    Except.ok (endpointsSearchBody eps q method pathPre topk)
  else
    Except.error "TypeError: stat: path should be string, not NoneType"

inductive MixedItem where
  | sym (h : SymHit)
  | chk (h : ChunkHit)
  | fil (h : FileHit)
  deriving Repr, DecidableEq

/-- `(it.get("path"), it.get("startLine") or it.get("line"))` — `or`
treats `0` and a missing key as falsy. -/
def mixedKey : MixedItem → List String × Option Nat
  | MixedItem.sym h => (h.path, if h.line = 0 then none else some h.line)
  | MixedItem.chk h =>
    (h.path, if h.startLine = 0 then none else some h.startLine)
  | MixedItem.fil h => (h.path, none)

/-- `10 ×` the fixed source-priority weight (`1.0 / 0.7 / 0.5`). -/
def mixedWeightS : MixedItem → Nat
  | MixedItem.sym _ => 10
  | MixedItem.chk _ => 7
  | MixedItem.fil _ => 5

def mixedSourceTag : MixedItem → String
  | MixedItem.sym _ => "symbols"
  | MixedItem.chk _ => "chunks"
  | MixedItem.fil _ => "files"

/-- The `seen`-set dedup of the merge loop (first occurrence of each
`(path, line-or-start-line)` key wins). -/
def dedupByKey (seen : List (List String × Option Nat)) :
    List (Nat × MixedItem) → List (Nat × MixedItem)
  | [] => []
  | x :: rest =>
    if seen.contains (mixedKey x.2) then dedupByKey seen rest
    else x :: dedupByKey (mixedKey x.2 :: seen) rest

/-- The whole index state the tools read, plus the filesystem maps
used for previews and symlink resolution. -/
structure ToolsCtx where
  proj : List String
  filesIdx : List FileRecord
  symbolsIdx : List SymRec
  chunksIdx : List ChunkRec
  endpointsIdx : List EndpointRec
  realMap : List (List String × List String)
  fsMap : List (List String × List String)

def ctxReal (ctx : ToolsCtx) (p : List String) : List String :=
  (ctx.realMap.lookup p).getD p

def ctxRead (ctx : ToolsCtx) (p : List String) : Option (List String) :=
  ctx.fsMap.lookup p

/-- `mixed_search`: the three searches at reduced caps, merged in the
order symbols → chunks → files with key dedup, stably sorted by the
fixed weight, `max(1, top_k)` cap. -/
def mixedSearch (ctx : ToolsCtx) (q : String) (topk : Int) :
    Except String (List MixedItem) := do
  let sym ← symbolsSearch (ctxReal ctx) (ctxRead ctx) ctx.proj
    ctx.symbolsIdx q none none 1 (intMax 5 (intFloorDiv topk 3))
  let chk := chunksSearch ctx.chunksIdx q none none
    (intMax 5 (intFloorDiv topk 2))
  let fil := filesSearch ctx.filesIdx q none none
    (intMax 5 (intFloorDiv topk 3))
  let merged := dedupByKey []
    (sym.map (fun h => (mixedWeightS (MixedItem.sym h), MixedItem.sym h))
      ++ chk.map (fun h => (mixedWeightS (MixedItem.chk h), MixedItem.chk h))
      ++ fil.map (fun h => (mixedWeightS (MixedItem.fil h), MixedItem.fil h)))
  Except.ok (((sortDescN Prod.fst merged).take (capOf topk)).map Prod.snd)

/-- `files_search` / `chunks_search` wrappers of the same context (for
uniform claim statements). -/
def filesSearchCtx (ctx : ToolsCtx) (q : String) (lang : Option String)
    (pathPre : Option String) (topk : Int) : List FileHit :=
  filesSearch ctx.filesIdx q lang pathPre topk

def chunksSearchCtx (ctx : ToolsCtx) (q : String) (lang : Option String)
    (pathPre : Option String) (topk : Int) : List ChunkHit :=
  chunksSearch ctx.chunksIdx q lang pathPre topk

def symbolsSearchCtx (ctx : ToolsCtx) (name : String) (kind : Option String)
    (lang : Option String) (ctxLines : Nat) (topk : Int) :
    Except String (List SymHit) :=
  symbolsSearch (ctxReal ctx) (ctxRead ctx) ctx.proj ctx.symbolsIdx
    name kind lang ctxLines topk

def endpointsSearchCtx (ctx : ToolsCtx) (q : String)
    (method : Option String) (pathPre : Option String) (topk : Int) :
    Except String (List EndpointRec) :=
  endpointsSearch ctx.endpointsIdx q method pathPre topk

/-! ## Build (`CodeIndex.init` / `CodeIndex.reindex`)

`_build_symbols` shells out to `universal-ctags`; the external tool is
modelled as an opaque `Option Nat` (absent tool ↦ count `0` and no
symbols file, matching the graceful degrade).  `init` never raises on
a scope argument: it writes every index file and returns the summary
string. -/

/-- `_build_chunks` over the records of `files.jsonl`. -/
def buildChunks (tree : FSTree) (files : List FileRecord) (w o : Nat) :
    List ChunkRec :=
  files.flatMap (fun fr =>
    if ¬ fr.isText then []
    else
      match fsLines tree fr.path with
      | none => []
      | some lines =>
        if lines.length = 0 then []
        else buildChunksFile fr.path fr.relpath fr.language lines w o)

structure InitResult where
  files : List FileRecord
  symbolsCount : Nat
  chunks : List ChunkRec
  endpoints : List EndpointRec
  message : String
  writes : List String
  deriving Repr, DecidableEq

/-- `CodeIndex.init`: build the manifest, symbols, chunks and
endpoints, overwrite every index file, return the summary string.
`writes` lists the index files written, in program order. -/
def codeIndexInit (tree : FSTree) (root : List String)
    (scope : Option String) (maxSizeMb w o : Nat) (ctags : Option Nat) :
    InitResult :=
  let files := iterFiles tree root scope maxSizeMb
  let symCount := ctags.getD 0
  let chunks := buildChunks tree files w o
  let endpoints := buildEndpoints tree root files
  { files := files, symbolsCount := symCount, chunks := chunks,
    endpoints := endpoints,
    message := "索引完成：files=" ++ toString files.length
      ++ ", symbols=" ++ toString symCount
      ++ ", chunks=" ++ toString chunks.length
      ++ ", endpoints=" ++ toString endpoints.length,
    writes := ["files.jsonl"]
      ++ (if ctags.isSome then ["symbols.jsonl"] else [])
      ++ ["chunks.jsonl", "endpoints.jsonl", "stats.json"] }

/-- `CodeIndex.reindex` delegates to `init` unconditionally. -/
def codeIndexReindex (tree : FSTree) (root : List String)
    (scope : Option String) (maxSizeMb w o : Nat) (ctags : Option Nat) :
    InitResult :=
  codeIndexInit tree root scope maxSizeMb w o ctags

/-! ## Concrete fixtures used by closed theorems -/

def fixtureMeta (lines : List String) : FileMeta :=
  { size := 10, mtime := 0, statOk := true, openOk := true,
    lines := lines, real := none }

/-- A project containing one Flask route registered for GET and POST. -/
def flaskTreeTwo : FSTree :=
  FSTree.dir [("p", FSTree.dir [("app.py", FSTree.file (fixtureMeta
    ["@app.route(\"/x\", methods=[\"GET\", \"POST\"])\n",
     "def handler():\n", "    return 1\n"]))])]

/-- A project containing one Flask route with no `methods` list. -/
def flaskTreeAny : FSTree :=
  FSTree.dir [("p", FSTree.dir [("app.py", FSTree.file (fixtureMeta
    ["@app.route(\"/x\")\n", "def handler():\n"]))])]

/-- A project beside a sibling directory, for out-of-root scopes. -/
def escapeTree : FSTree :=
  FSTree.dir [("p", FSTree.dir [("a.py", FSTree.file (fixtureMeta
      ["print(1)\n"]))]),
    ("evil", FSTree.dir [("s.txt", FSTree.file (fixtureMeta
      ["secret\n"]))])]

/-- A project whose only file is a symlink escaping the root. -/
def symlinkTree : FSTree :=
  FSTree.dir [("p", FSTree.dir [("link.py", FSTree.file
    { size := 1, mtime := 0, statOk := true, openOk := true,
      lines := [], real := some ["outside", "t.py"] })])]

/-- `os.path.realpath` against the modelled tree. -/
def realpathFS (tree : FSTree) (p : List String) : List String :=
  match locate tree p with
  | some (FSTree.file m) => realOf m p
  | _ => p

/-- Two memory items sharing the token `alpha`: `a` is stale (beyond
30 days), `b` fresh. -/
def memItemStale : MemItem :=
  { id := "a", content := "alpha old", tags := [], importance := 60,
    createdAt := some 0, lastUsedAt := some 0, sessionId := none,
    source := "assistant_final_answer" }

def memItemFresh : MemItem :=
  { id := "b", content := "alpha new", tags := [], importance := 60,
    createdAt := some 0, lastUsedAt := some 2592001, sessionId := none,
    source := "assistant_final_answer" }

/-- A store already holding two rows with the same normalized
content. -/
def dupStore : List MemItem :=
  [{ id := "d1", content := "Duplicate fact", tags := [],
     importance := 60, createdAt := some 0, lastUsedAt := some 0,
     sessionId := none, source := "assistant_final_answer" },
   { id := "d2", content := "duplicate  FACT", tags := [],
     importance := 60, createdAt := some 0, lastUsedAt := some 0,
     sessionId := none, source := "assistant_final_answer" }]

/-- How many stored rows carry a given normalized content. -/
def countNorm (items : List MemItem) (n : String) : Nat :=
  (items.filter (fun it => normalizeText it.content = n)).length

/-- An index state where the query `alpha` has one symbol, one chunk
and one file hit at three distinct `(path, line)` keys. -/
def mixedFileRec : FileRecord :=
  { path := ["p", "alpha.py"], relpath := ["alpha.py"], size := 1,
    mtime := 0, isText := true, language := "python", lines := some 1 }

def mixedSymRec : SymRec :=
  { path := ["p", "a.py"], name := "alphafn", kind := "function",
    line := 5, language := "python" }

def mixedChunkRec : ChunkRec :=
  { path := ["p", "b.py"], relpath := ["b.py"], startLine := 1,
    endLine := 10, language := "python", preview := "",
    identifiers := ["alpha"] }

def mixedCtx : ToolsCtx :=
  { proj := ["p"], filesIdx := [mixedFileRec],
    symbolsIdx := [mixedSymRec], chunksIdx := [mixedChunkRec],
    endpointsIdx := [], realMap := [], fsMap := [] }

/-- Position of a mixed hit in the fixed source-priority order. -/
def mixedRank : MixedItem → Nat
  | MixedItem.sym _ => 0
  | MixedItem.chk _ => 1
  | MixedItem.fil _ => 2

/-- Length of the list inside an `ok`, `0` for an error. -/
def okLength : Except String (List α) → Nat
  | Except.ok l => l.length
  | Except.error _ => 0

/-- The file record the symlink fixture yields. -/
def symlinkRec : FileRecord :=
  { path := ["p", "link.py"], relpath := ["link.py"], size := 1,
    mtime := 0, isText := true, language := "python", lines := some 0 }

/-- The item `add_from_turn` appends for a fresh candidate. -/
def freshMemItem (c : String) (sid : Option String) (t : Nat) : MemItem :=
  { id := "mem_" ++ toString t, content := c, tags := [],
    importance := 60, createdAt := some t, lastUsedAt := some t,
    sessionId := sid, source := "assistant_final_answer" }

/-- The same item after one dedup bump at time `t2`. -/
def bumpedMemItem (c : String) (sid : Option String) (t1 t2 : Nat) :
    MemItem :=
  { id := "mem_" ++ toString t1, content := c, tags := [],
    importance := 65, createdAt := some t1, lastUsedAt := some t2,
    sessionId := sid, source := "assistant_final_answer" }

/-- Spec-modelled degraded retrieval: rank by the rational formula
`0.25*importance + 0.15*recency + 0.2*overlap` (vector similarity
forced to `0`), drop non-positive scores, stable sort descending,
take `k`. -/
def specRetrieveNoVec (items : List MemItem) (q : String) (k now : Nat) :
    List String :=
  if items.isEmpty ∨ pyStrip q = "" then []
  else if tokenSet q = [] then []
  else
    ((sortDescQ Prod.fst (items.filterMap (fun it =>
      if 0 < memScoreQ now q it then some (memScoreQ now q it, it.content)
      else none))).take k).map Prod.snd

/-- The single symbol hit the mixed fixture yields for `alpha`. -/
def mixedSymHit : SymHit :=
  { path := ["p", "a.py"], line := 5, name := "alphafn",
    kind := "function", language := "python", preview := "" }

/-- The two fixture items after a `lastUsedAt` refresh at `2592001`. -/
def refreshedStale : MemItem := { memItemStale with lastUsedAt := some 2592001 }

def refreshedFresh : MemItem := { memItemFresh with lastUsedAt := some 2592001 }

theorem sInsert_perm (keep : α → α → Bool) (x : α) (l : List α) :
    (sInsert keep x l).Perm (x :: l) := by
  induction l with
  | nil => simp [sInsert]
  | cons e es ih =>
    by_cases h : keep e x = true
    · simpa [sInsert, h] using ((ih.cons e).trans (List.Perm.swap x e es))
    · simp [sInsert, h]

theorem sSort_perm (keep : α → α → Bool) (l : List α) :
    (sSort keep l).Perm l := by
  suffices h : ∀ acc : List α,
      (l.foldl (fun acc x => sInsert keep x acc) acc).Perm (acc ++ l) by
    simpa using h []
  induction l with
  | nil => intro acc; simp
  | cons e es ih =>
    intro acc
    refine (ih (sInsert keep e acc)).trans ?_
    have h1 : (sInsert keep e acc ++ es).Perm ((e :: acc) ++ es) :=
      (sInsert_perm keep e acc).append_right es
    refine h1.trans ?_
    simpa using (@List.perm_middle _ e acc es).symm

theorem sInsert_pairwise (keep : α → α → Bool)
    (htot : ∀ a b, keep a b ∨ keep b a)
    (htrans : ∀ a b c, keep a b → keep b c → keep a c)
    (x : α) (l : List α)
    (hl : l.Pairwise (fun a b => keep a b)) :
    (sInsert keep x l).Pairwise (fun a b => keep a b) := by
  induction l with
  | nil => simp [sInsert]
  | cons e es ih =>
    rcases List.pairwise_cons.mp hl with ⟨he, hes⟩
    by_cases h : keep e x = true
    · rw [show sInsert keep x (e :: es) = e :: sInsert keep x es by
        simp [sInsert, h]]
      refine List.pairwise_cons.mpr ⟨?_, ih hes⟩
      intro b hb
      have := (sInsert_perm keep x es).mem_iff.mp hb
      rcases List.mem_cons.mp this with hbx | hbes
      · exact hbx ▸ h
      · exact he b hbes
    · have hxe : keep x e := (htot x e).resolve_right (by
        intro hc; exact h hc)
      rw [show sInsert keep x (e :: es) = x :: e :: es by
        simp [sInsert, h]]
      refine List.pairwise_cons.mpr ⟨?_, hl⟩
      intro b hb
      rcases List.mem_cons.mp hb with hbe | hbes
      · exact hbe ▸ hxe
      · exact htrans x e b hxe (he b hbes)

theorem sSort_pairwise (keep : α → α → Bool)
    (htot : ∀ a b, keep a b ∨ keep b a)
    (htrans : ∀ a b c, keep a b → keep b c → keep a c)
    (l : List α) :
    (sSort keep l).Pairwise (fun a b => keep a b) := by
  suffices h : ∀ acc : List α, acc.Pairwise (fun a b => keep a b) →
      (l.foldl (fun acc x => sInsert keep x acc) acc).Pairwise
        (fun a b => keep a b) by
    exact h [] (by simp)
  induction l with
  | nil => intro acc hacc; simpa using hacc
  | cons e es ih =>
    intro acc hacc
    exact ih (sInsert keep e acc) (sInsert_pairwise keep htot htrans e acc hacc)

theorem sInsert_map (keep₁ : α → α → Bool) (keep₂ : β → β → Bool)
    (f : α → β) (hf : ∀ a b, keep₂ (f a) (f b) = keep₁ a b)
    (x : α) (l : List α) :
    sInsert keep₂ (f x) (l.map f) = (sInsert keep₁ x l).map f := by
  induction l with
  | nil => simp [sInsert]
  | cons e es ih =>
    by_cases h : keep₁ e x = true
    · simp [sInsert, hf, h, ih]
    · simp [sInsert, hf, h]

theorem sSort_map (keep₁ : α → α → Bool) (keep₂ : β → β → Bool)
    (f : α → β) (hf : ∀ a b, keep₂ (f a) (f b) = keep₁ a b)
    (l : List α) :
    sSort keep₂ (l.map f) = (sSort keep₁ l).map f := by
  suffices h : ∀ acc : List α,
      (l.map f).foldl (fun acc x => sInsert keep₂ x acc) (acc.map f)
        = ((l.foldl (fun acc x => sInsert keep₁ x acc) acc)).map f by
    simpa using h []
  induction l with
  | nil => intro acc; simp
  | cons e es ih =>
    intro acc
    simp only [List.map_cons, List.foldl_cons]
    rw [sInsert_map keep₁ keep₂ f hf, ih]

theorem sortDescQ_pairwise (key : α → ℚ) (l : List α) :
    (sortDescQ key l).Pairwise (fun a b => key b ≤ key a) := by
  have h := sSort_pairwise (fun e x => decide (key x ≤ key e))
    (fun a b => by
      rcases le_total (key b) (key a) with h | h
      · exact Or.inl (by simpa using h)
      · exact Or.inr (by simpa using h))
    (fun a b c hab hbc => by
      simp only [decide_eq_true_eq] at *
      exact le_trans hbc hab) l
  exact h.imp (by intro a b hab; simpa using hab)

theorem sortDescQ_perm (key : α → ℚ) (l : List α) :
    (sortDescQ key l).Perm l := sSort_perm _ l

theorem sortAscN_perm (key : α → Nat) (l : List α) :
    (sortAscN key l).Perm l := sSort_perm _ l

theorem sortDescN_pairwise (key : α → Nat) (l : List α) :
    (sortDescN key l).Pairwise (fun a b => key b ≤ key a) := by
  have h := sSort_pairwise (fun e x => decide (key x ≤ key e))
    (fun a b => by
      rcases le_total (key b) (key a) with h | h
      · exact Or.inl (by simpa using h)
      · exact Or.inr (by simpa using h))
    (fun a b c hab hbc => by
      simp only [decide_eq_true_eq] at *
      exact le_trans hbc hab) l
  exact h.imp (by intro a b hab; simpa using hab)

theorem sortDescN_perm (key : α → Nat) (l : List α) :
    (sortDescN key l).Perm l := sSort_perm _ l

theorem sortDescI_pairwise (key : α → Int) (l : List α) :
    (sortDescI key l).Pairwise (fun a b => key b ≤ key a) := by
  have h := sSort_pairwise (fun e x => decide (key x ≤ key e))
    (fun a b => by
      rcases le_total (key b) (key a) with h | h
      · exact Or.inl (by simpa using h)
      · exact Or.inr (by simpa using h))
    (fun a b c hab hbc => by
      simp only [decide_eq_true_eq] at *
      exact le_trans hbc hab) l
  exact h.imp (by intro a b hab; simpa using hab)

theorem sortDescI_perm (key : α → Int) (l : List α) :
    (sortDescI key l).Perm l := sSort_perm _ l

theorem lengthDropWhileLe (p : α → Bool) (l : List α) :
    (l.dropWhile p).length ≤ l.length := by
  induction l with
  | nil => simp
  | cons a as ih =>
    by_cases h : p a = true
    · rw [List.dropWhile_cons_of_pos h]
      exact le_trans ih (Nat.le_succ _)
    · rw [List.dropWhile_cons_of_neg (by simp [h])]

/-- Every token produced by the scanner is nonempty, starts with a
start-class character, continues with continuation-class characters,
and has length at least 3. -/
theorem scanGo_tokens (fuel : Nat) (l : List Char)
    (h : l.length ≤ fuel) :
    ∀ tok ∈ scanGo fuel l, 3 ≤ tok.length ∧
      ∃ c rest, tok = c :: rest ∧ isIdentStart c ∧
        ∀ d ∈ rest, isIdentCont d := by
  induction fuel generalizing l with
  | zero => intro tok htok; simp [scanGo] at htok
  | succ f ih =>
    intro tok htok
    match l with
    | [] => simp [scanGo] at htok
    | c :: rest =>
      simp only [scanGo] at htok
      by_cases hs : isIdentStart c = true
      · simp only [hs, if_true] at htok
        by_cases hlen : 2 ≤ (rest.takeWhile isIdentCont).length
        · simp only [hlen, if_true, List.mem_cons] at htok
          rcases htok with heq | hmem
          · subst heq
            refine ⟨by simpa using Nat.succ_le_succ hlen, c,
              rest.takeWhile isIdentCont, rfl, hs, ?_⟩
            intro d hd
            exact List.mem_takeWhile_imp hd
          · exact ih (rest.dropWhile isIdentCont)
              (le_trans (lengthDropWhileLe _ _) (by simpa using h))
              tok hmem
        · simp only [hlen, if_false] at htok
          exact ih rest (by simpa using h) tok htok
      · simp only [hs, if_false] at htok
        exact ih rest (by simpa using h) tok htok

theorem mem_dedupFirstGo (seen l : List String) (t : String) :
    t ∈ dedupFirstGo seen l ↔ t ∈ l ∧ t ∉ seen := by
  induction l generalizing seen with
  | nil => simp [dedupFirstGo]
  | cons s ts ih =>
    simp only [dedupFirstGo]
    split
    next hs =>
      have hsmem : s ∈ seen := by simpa using hs
      rw [ih]
      constructor
      · rintro ⟨h1, h2⟩
        exact ⟨List.mem_cons_of_mem _ h1, h2⟩
      · rintro ⟨h1, h2⟩
        rcases List.mem_cons.mp h1 with rfl | h1
        · exact absurd hsmem h2
        · exact ⟨h1, h2⟩
    next hs =>
      have hsnot : s ∉ seen := by simpa using hs
      constructor
      · intro h
        rcases List.mem_cons.mp h with rfl | h
        · exact ⟨List.mem_cons_self _ _, hsnot⟩
        · rcases (ih (s :: seen)).mp h with ⟨h1, h2⟩
          exact ⟨List.mem_cons_of_mem _ h1,
            fun hc => h2 (List.mem_cons_of_mem _ hc)⟩
      · rintro ⟨h1, h2⟩
        rcases List.mem_cons.mp h1 with rfl | h1
        · exact List.mem_cons_self _ _
        · by_cases hts : t = s
          · exact hts ▸ List.mem_cons_self _ _
          · refine List.mem_cons_of_mem _ ((ih (s :: seen)).mpr ⟨h1, ?_⟩)
            intro hc
            rcases List.mem_cons.mp hc with h | h
            · exact hts h
            · exact h2 h

theorem mem_dedupFirst (l : List String) (t : String) :
    t ∈ dedupFirst l ↔ t ∈ l := by
  simp [dedupFirst, mem_dedupFirstGo]

theorem dedupFirstGo_append_singleton (seen l : List String) (t : String) :
    dedupFirstGo seen (l ++ [t]) =
      dedupFirstGo seen l ++ (if t ∈ seen ∨ t ∈ l then [] else [t]) := by
  induction l generalizing seen with
  | nil =>
    by_cases h : t ∈ seen
    · simp [dedupFirstGo, h, List.elem_eq_true_of_mem h]
    · have : seen.contains t = false := by
        simpa using h
      simp [dedupFirstGo, this, h]
  | cons s ts ih =>
    rw [List.cons_append]
    simp only [dedupFirstGo]
    split
    next hs =>
      have hmem : s ∈ seen := by simpa using hs
      rw [ih]
      congr 1
      by_cases hc : t ∈ seen ∨ t ∈ ts
      · rw [if_pos hc, if_pos (by
          rcases hc with h | h
          · exact Or.inl h
          · exact Or.inr (List.mem_cons_of_mem _ h))]
      · rw [if_neg hc, if_neg (by
          rintro (h | h)
          · exact hc (Or.inl h)
          · rcases List.mem_cons.mp h with rfl | h
            · exact hc (Or.inl hmem)
            · exact hc (Or.inr h))]
    next hs =>
      have hmem : ¬ s ∈ seen := by simpa using hs
      rw [ih]
      simp only [List.cons_append]
      congr 2
      by_cases hc : t ∈ s :: seen ∨ t ∈ ts
      · rw [if_pos hc, if_pos (by
          rcases hc with h | h
          · rcases List.mem_cons.mp h with rfl | h
            · exact Or.inr (List.mem_cons_self _ _)
            · exact Or.inl h
          · exact Or.inr (List.mem_cons_of_mem _ h))]
      · rw [if_neg hc, if_neg (by
          rintro (h | h)
          · exact hc (Or.inl (List.mem_cons_of_mem _ h))
          · rcases List.mem_cons.mp h with rfl | h
            · exact hc (Or.inl (List.mem_cons_self _ _))
            · exact hc (Or.inr h))]

theorem dedupFirst_append_singleton (l : List String) (t : String) :
    dedupFirst (l ++ [t]) =
      dedupFirst l ++ (if t ∈ l then [] else [t]) := by
  rw [dedupFirst, dedupFirstGo_append_singleton]
  simp [dedupFirst]

theorem count_append_singleton_ne (l : List String) (s t : String)
    (h : s ≠ t) : (l ++ [t]).count s = l.count s := by
  simp only [List.count_append, List.count_cons, List.count_nil]
  simp [Ne.symm h]

theorem freqUpdate_rep (l : List String) (t : String) :
    freqUpdate (freqRep l) t = freqRep (l ++ [t]) := by
  by_cases hmem : t ∈ l
  · have hany : (freqRep l).any (fun p => p.1 = t) = true := by
      refine List.any_eq_true.mpr ⟨(t, l.count t), ?_, by simp⟩
      exact List.mem_map.mpr ⟨t, (mem_dedupFirst l t).mpr hmem, rfl⟩
    rw [freqUpdate, if_pos (by simpa using hany)]
    simp only [freqRep]
    rw [dedupFirst_append_singleton, if_pos hmem, List.append_nil,
      List.map_map]
    refine List.map_congr_left ?_
    intro s _
    by_cases hst : s = t
    · subst hst
      simp [List.count_append]
    · simp only [Function.comp_apply]
      rw [if_neg (by simpa using hst), count_append_singleton_ne l s t hst]
  · have hany : (freqRep l).any (fun p => p.1 = t) = false := by
      rw [List.any_eq_false]
      intro p hp
      rcases List.mem_map.mp hp with ⟨u, hu, rfl⟩
      simp only [decide_eq_true_eq]
      intro h
      exact hmem (h ▸ (mem_dedupFirst l u).mp hu)
    rw [freqUpdate, if_neg (by simp [hany])]
    simp only [freqRep]
    rw [dedupFirst_append_singleton, if_neg hmem, List.map_append]
    congr 1
    · refine List.map_congr_left ?_
      intro s hs
      have hst : s ≠ t := by
        intro h
        exact hmem (h ▸ (mem_dedupFirst l s).mp hs)
      rw [count_append_singleton_ne l s t hst]
    · have : (l ++ [t]).count t = 1 := by
        simp [List.count_append, List.count_eq_zero.mpr hmem]
      simp [this, List.count_eq_zero.mpr hmem]

theorem freqFold_eq (toks : List String) : freqFold toks = freqRep toks := by
  induction toks using List.reverseRecOn with
  | nil => rfl
  | append_singleton l t ih =>
    rw [freqFold, List.foldl_append, List.foldl_cons, List.foldl_nil,
      ← freqFold, ih, freqUpdate_rep]

theorem extractIdentifiers_eq_spec (text : String) :
    extractIdentifiers text = specAmendedIdentifiers text := by
  simp only [extractIdentifiers, specAmendedIdentifiers]
  rw [freqFold_eq, freqRep]
  rw [show sortDescN (fun p => p.2)
      ((dedupFirst (((scanIdentTokens text.toList).map lowerStr).filter
        (fun t => ¬ stopWords.contains t))).map
        (fun t => (t, (((scanIdentTokens text.toList).map lowerStr).filter
          (fun t => ¬ stopWords.contains t)).count t)))
    = (sortDescN (fun t => (((scanIdentTokens text.toList).map
          lowerStr).filter (fun t => ¬ stopWords.contains t)).count t)
        (dedupFirst (((scanIdentTokens text.toList).map lowerStr).filter
          (fun t => ¬ stopWords.contains t)))).map
        (fun t => (t, (((scanIdentTokens text.toList).map lowerStr).filter
          (fun t => ¬ stopWords.contains t)).count t)) from
    sSort_map _ _ _ (fun a b => by simp) _]
  rw [← List.map_take, List.map_map]
  simp [Function.comp_def]

theorem chunkStep_pos (w o : Nat) : 1 ≤ chunkStep w o :=
  le_max_left 1 _

theorem chunkStep_le (w o : Nat) (hw : 1 ≤ w) : chunkStep w o ≤ w := by
  rw [chunkStep]
  exact max_le hw (Nat.sub_le _ _)

theorem chunkGo_bounds (n w o : Nat) :
    ∀ fuel start, ∀ p ∈ chunkGo n w o fuel start, 1 ≤ p.1 ∧ p.2 ≤ n := by
  intro fuel
  induction fuel with
  | zero => intro start p hp; simp [chunkGo] at hp
  | succ f ih =>
    intro start p hp
    rw [chunkGo] at hp
    by_cases hs : start < n
    · rw [if_pos hs] at hp
      rcases List.mem_cons.mp hp with rfl | hp
      · exact ⟨Nat.succ_le_succ (Nat.zero_le _), min_le_left _ _⟩
      · by_cases he : min n (start + w) = n
        · rw [if_pos he] at hp; simp at hp
        · rw [if_neg he] at hp
          exact ih _ p hp
    · rw [if_neg hs] at hp; simp at hp

theorem chunkGo_head (n w o : Nat) (fuel start : Nat) :
    chunkGo n w o fuel start = [] ∨
      ∃ rest, chunkGo n w o fuel start
        = (start + 1, min n (start + w)) :: rest := by
  cases fuel with
  | zero => exact Or.inl rfl
  | succ f =>
    by_cases hs : start < n
    · exact Or.inr ⟨_, by rw [chunkGo, if_pos hs]⟩
    · exact Or.inl (by rw [chunkGo, if_neg hs])

theorem chunkGo_chain (n w o : Nat) :
    ∀ fuel start, List.Chain'
      (fun a b => b.1 = a.1 + chunkStep w o) (chunkGo n w o fuel start) := by
  intro fuel
  induction fuel with
  | zero => intro start; simp [chunkGo]
  | succ f ih =>
    intro start
    rw [chunkGo]
    by_cases hs : start < n
    · rw [if_pos hs]
      by_cases he : min n (start + w) = n
      · rw [if_pos he]; simp
      · rw [if_neg he]
        refine List.Chain'.cons' (ih _) ?_
        intro y hy
        rcases chunkGo_head n w o f (start + chunkStep w o) with hnil | ⟨rest, hcons⟩
        · rw [hnil] at hy; simp at hy
        · rw [hcons] at hy
          simp only [List.head?_cons, Option.mem_def, Option.some.injEq] at hy
          subst hy
          simp [Nat.add_right_comm]
    · rw [if_neg hs]; simp

theorem chunkGo_last (n w o : Nat) (hw : 1 ≤ w) :
    ∀ fuel start, start < n → n - start ≤ fuel →
      (chunkGo n w o fuel start).getLast?.map Prod.snd = some n := by
  intro fuel
  induction fuel with
  | zero => intro start h1 h2; omega
  | succ f ih =>
    intro start h1 h2
    rw [chunkGo, if_pos h1]
    by_cases he : min n (start + w) = n
    · rw [if_pos he]
      simp [he]
    · rw [if_neg he]
      have hwn : start + w < n := by
        rcases Nat.lt_or_ge (start + w) n with h | h
        · exact h
        · exact absurd (min_eq_left h) he
      have hlt : start + chunkStep w o < n :=
        lt_of_le_of_lt (Nat.add_le_add_left (chunkStep_le w o hw) start) hwn
      have hfuel : n - (start + chunkStep w o) ≤ f := by
        have := chunkStep_pos w o
        omega
      have hrec := ih (start + chunkStep w o) hlt hfuel
      rcases chunkGo_head n w o f (start + chunkStep w o) with hnil | ⟨rest, hcons⟩
      · rw [hnil] at hrec; simp at hrec
      · rw [hcons] at hrec ⊢
        rw [List.getLast?_cons_cons]
        exact hrec

theorem chunkWindows_zero (w o : Nat) : chunkWindows 0 w o = [] := rfl

theorem chunkRecsGo_windows (path relpath : List String) (lang : String)
    (lines : List String) (w o : Nat) :
    ∀ fuel start,
      (chunkRecsGo path relpath lang lines w o fuel start).map
        (fun r => (r.startLine, r.endLine))
      = chunkGo lines.length w o fuel start := by
  intro fuel
  induction fuel with
  | zero => intro start; rfl
  | succ f ih =>
    intro start
    rw [chunkRecsGo, chunkGo]
    by_cases hs : start < lines.length
    · rw [if_pos hs, if_pos hs]
      by_cases he : min lines.length (start + w) = lines.length
      · rw [if_pos he, if_pos he]; rfl
      · rw [if_neg he, if_neg he]
        simp only [List.map_cons, ih]
    · rw [if_neg hs, if_neg hs]; rfl

theorem buildChunksFile_windows (path relpath : List String) (lang : String)
    (lines : List String) (w o : Nat) :
    (buildChunksFile path relpath lang lines w o).map
      (fun r => (r.startLine, r.endLine))
    = chunkWindows lines.length w o :=
  chunkRecsGo_windows path relpath lang lines w o lines.length 0

theorem walkGo_shape (fuel : Nat) :
    ∀ p t, ∀ pm ∈ walkGo fuel p t, WalkShape p pm := by
  induction fuel with
  | zero => intro p t pm hpm; simp [walkGo] at hpm
  | succ f ih =>
    intro p t pm hpm
    match t with
    | FSTree.file m => simp [walkGo] at hpm
    | FSTree.dir es =>
      rw [walkGo] at hpm
      rcases List.mem_append.mp hpm with hf | hd
      · rcases List.mem_filterMap.mp hf with ⟨e, _, he⟩
        match hE : e.2 with
        | FSTree.file m =>
          rw [hE] at he
          refine ⟨[], e.1, ?_, by simp⟩
          simp only [Option.some.injEq] at he
          rw [← he]
          simp
        | FSTree.dir _ => rw [hE] at he; simp at he
      · rcases List.mem_flatMap.mp hd with ⟨e, _, hmem⟩
        match hE : e.2 with
        | FSTree.file m => rw [hE] at hmem; simp at hmem
        | FSTree.dir es' =>
          rw [hE] at hmem
          dsimp only [] at hmem
          by_cases hig : IGNORED_DIRS.contains e.1
          · rw [if_pos hig] at hmem; simp at hmem
          · rw [if_neg hig] at hmem
            rcases ih (p ++ [e.1]) e.2 pm (hE ▸ hmem) with ⟨mid, nm, heq, hmid⟩
            refine ⟨e.1 :: mid, nm, by simpa using heq, ?_⟩
            intro d hd'
            rcases List.mem_cons.mp hd' with rfl | hd'
            · exact hig
            · exact hmid d hd'

theorem walkTree_shape (p : List String) (t : FSTree) :
    ∀ pm ∈ walkTree p t, WalkShape p pm :=
  walkGo_shape (treeSize t) p t

theorem memScoreQ_eq (now : Nat) (q : String) (it : MemItem) :
    (memScoreS now q it : ℚ) = 2000 * memScoreQ now q it := by
  rw [memScoreS, memScoreQ, impQ, recQ]
  push_cast
  ring

theorem memScoreS_le_iff (now : Nat) (q : String) (a b : MemItem) :
    memScoreS now q a ≤ memScoreS now q b ↔
      memScoreQ now q a ≤ memScoreQ now q b := by
  rw [show (memScoreS now q a ≤ memScoreS now q b) ↔
      ((memScoreS now q a : ℚ) ≤ (memScoreS now q b : ℚ)) by
    exact_mod_cast Iff.rfl]
  rw [memScoreQ_eq, memScoreQ_eq]
  constructor
  · intro h; nlinarith
  · intro h; nlinarith

theorem memScoreS_pos_iff (now : Nat) (q : String) (a : MemItem) :
    0 < memScoreS now q a ↔ 0 < memScoreQ now q a := by
  rw [show (0 < memScoreS now q a) ↔ ((0 : ℚ) < (memScoreS now q a : ℚ)) by
    exact_mod_cast Iff.rfl]
  rw [memScoreQ_eq]
  constructor
  · intro h; nlinarith
  · intro h; nlinarith

/-! ## Claim theorems -/

/-- C2 bounds, lifted to the emitted records. -/
theorem buildChunksFile_mem_bounds (path rel : List String) (lang : String)
    (lines : List String) (w o : Nat) :
    ∀ r ∈ buildChunksFile path rel lang lines w o,
      1 ≤ r.startLine ∧ r.endLine ≤ lines.length := by
  intro r hr
  have hmem : (r.startLine, r.endLine) ∈ chunkWindows lines.length w o := by
    rw [← buildChunksFile_windows path rel lang lines w o]
    exact List.mem_map_of_mem _ hr
  exact chunkGo_bounds lines.length w o lines.length 0 _ hmem

/-- C2: chunk windows of a file of `N ≥ 1` lines with window `W ≥ 1`
and overlap `O`: the loop emits at least one record, the last record
ends exactly at line `N`, every record stays within `1..N`, and
consecutive start lines differ by exactly `max 1 (W - O)`; a file of
zero lines yields no records. -/
theorem chunk_windows_spec (path rel : List String) (lang : String)
    (lines : List String) (w o : Nat) (hw : 1 ≤ w)
    (hn : 1 ≤ lines.length) :
    buildChunksFile path rel lang lines w o ≠ []
    ∧ (buildChunksFile path rel lang lines w o).getLast?.map
        (fun r => r.endLine) = some lines.length
    ∧ (∀ r ∈ buildChunksFile path rel lang lines w o,
        1 ≤ r.startLine ∧ r.endLine ≤ lines.length)
    ∧ (buildChunksFile path rel lang lines w o).Chain'
        (fun a b => b.startLine = a.startLine + max 1 (w - o))
    ∧ (∀ w' o', buildChunksFile path rel lang [] w' o' = []) := by
  have hlast : (chunkWindows lines.length w o).getLast?.map Prod.snd
      = some lines.length :=
    chunkGo_last lines.length w o hw lines.length 0 hn (by omega)
  have hproj := buildChunksFile_windows path rel lang lines w o
  refine ⟨?_, ?_, buildChunksFile_mem_bounds path rel lang lines w o, ?_, ?_⟩
  · intro hcs
    rw [← hproj, hcs] at hlast
    simp at hlast
  · rw [← hproj, List.getLast?_map, Option.map_map] at hlast
    exact hlast
  · have hchain : (chunkWindows lines.length w o).Chain'
        (fun a b => b.1 = a.1 + chunkStep w o) :=
      chunkGo_chain lines.length w o lines.length 0
    rw [← hproj, List.chain'_map] at hchain
    exact hchain.imp (fun a b h => h)
  · intro w' o'; rfl

/-- C2 witness: a three-line file with window 2 and overlap 1
satisfies the hypotheses and the conclusion of the claim theorem. -/
theorem chunk_windows_spec_witness :
    (1 : Nat) ≤ 2 ∧ (1 : Nat) ≤ (["a\n", "b\n", "c"] : List String).length
    ∧ (buildChunksFile ["p", "f.py"] ["f.py"] "python"
          ["a\n", "b\n", "c"] 2 1 ≠ []
      ∧ (buildChunksFile ["p", "f.py"] ["f.py"] "python"
          ["a\n", "b\n", "c"] 2 1).getLast?.map (fun r => r.endLine)
        = some (["a\n", "b\n", "c"] : List String).length
      ∧ (∀ r ∈ buildChunksFile ["p", "f.py"] ["f.py"] "python"
          ["a\n", "b\n", "c"] 2 1,
          1 ≤ r.startLine
          ∧ r.endLine ≤ (["a\n", "b\n", "c"] : List String).length)
      ∧ (buildChunksFile ["p", "f.py"] ["f.py"] "python"
          ["a\n", "b\n", "c"] 2 1).Chain'
          (fun a b => b.startLine = a.startLine + max 1 (2 - 1))
      ∧ (∀ w' o',
          buildChunksFile ["p", "f.py"] ["f.py"] "python" [] w' o' = [])) :=
  ⟨by decide, by decide,
    chunk_windows_spec ["p", "f.py"] ["f.py"] "python" ["a\n", "b\n", "c"]
      2 1 (by decide) (by decide)⟩

/-- C7 counterexample: the claim permits non-Latin word characters in
identifier tokens, but the source regex `[A-Za-z_][A-Za-z0-9_\-]{2,}`
is ASCII-only: on `"ábc ábc"` the claim's reading extracts `"ábc"`
while the code extracts nothing. -/
theorem extract_identifiers_claim_false :
    extractIdentifiers "ábc ábc" = []
    ∧ specClaimIdentifiers "ábc ábc" = ["ábc"]
    ∧ extractIdentifiers "ábc ábc" ≠ specClaimIdentifiers "ábc ábc" := by
  refine ⟨by decide, by decide, by decide⟩

/-- C7 amended: identifier extraction returns the lower-cased
leftmost-greedy matches of the ASCII pattern
`[A-Za-z_][A-Za-z0-9_-]{2,}` that are not stop words, ranked by
descending total frequency with ties in first-seen order (the
spec-modelled pipeline `specAmendedIdentifiers`), truncated to 20;
every returned token has length at least 3 and is not a stop word. -/
theorem extract_identifiers_amended (text : String) :
    extractIdentifiers text = specAmendedIdentifiers text
    ∧ (extractIdentifiers text).length ≤ 20
    ∧ (extractIdentifiers text).Pairwise (fun a b =>
        (((scanIdentTokens text.toList).map lowerStr).filter
          (fun t => ¬ stopWords.contains t)).count b
        ≤ (((scanIdentTokens text.toList).map lowerStr).filter
          (fun t => ¬ stopWords.contains t)).count a)
    ∧ ∀ t ∈ extractIdentifiers text,
        t ∉ stopWords ∧ 3 ≤ t.length := by
  have heq := extractIdentifiers_eq_spec text
  refine ⟨heq, ?_, ?_, ?_⟩
  · rw [heq, specAmendedIdentifiers]
    exact le_trans (List.length_take_le _ _) le_rfl
  · rw [heq, specAmendedIdentifiers]
    refine List.Pairwise.sublist (List.take_sublist _ _) ?_
    exact sortDescN_pairwise _ _
  · intro t ht
    rw [heq, specAmendedIdentifiers] at ht
    have hsort : t ∈ sortDescN (fun t =>
        (((scanIdentTokens text.toList).map lowerStr).filter
          (fun t => ¬ stopWords.contains t)).count t)
        (dedupFirst (((scanIdentTokens text.toList).map lowerStr).filter
          (fun t => ¬ stopWords.contains t))) :=
      List.mem_of_mem_take ht
    have hded := (sortDescN_perm _ _).mem_iff.mp hsort
    have hmem := (mem_dedupFirst _ t).mp hded
    rcases List.mem_filter.mp hmem with ⟨hmap, hstop⟩
    constructor
    · simpa using hstop
    · rcases List.mem_map.mp hmap with ⟨tok, htok, rfl⟩
      rcases scanGo_tokens (text.toList.length) text.toList le_rfl tok
        htok with ⟨hlen, _⟩
      rw [lowerStr]
      simpa using hlen

/-- C7 witness: a concrete text through the amended pipeline. -/
theorem extract_identifiers_amended_witness :
    extractIdentifiers "foo_bar foo_bar baz1 the"
      = specAmendedIdentifiers "foo_bar foo_bar baz1 the"
    ∧ extractIdentifiers "foo_bar foo_bar baz1 the" = ["foo_bar", "baz1"] :=
  ⟨(extract_identifiers_amended "foo_bar foo_bar baz1 the").1, by decide⟩

/-- C8: on a Python file whose single Flask route declares
`methods=["GET", "POST"]`, the build emits exactly two endpoint
records sharing line and route, one per method; with no `methods`
list it emits exactly one record with the sentinel `ANY`. -/
theorem endpoint_flask_methods :
    ((codeIndexInit flaskTreeTwo ["p"] none 10 300 50 none).endpoints.map
      (fun r => (r.line, r.method, r.route, r.framework, r.handler))
      = [(1, "GET", "/x", "python-flask", some "handler"),
         (1, "POST", "/x", "python-flask", some "handler")])
    ∧ ((codeIndexInit flaskTreeAny ["p"] none 10 300 50 none).endpoints.map
      (fun r => (r.line, r.method, r.route))
      = [(1, "ANY", "/x")]) :=
  ⟨by decide, by decide⟩

theorem iterFiles_empty_of_disjoint (tree : FSTree) (root : List String)
    (scope : Option String) (maxMb : Nat)
    (h1 : isWithin root (resolveScope root scope) = false)
    (h2 : ¬ resolveScope root scope <+: root) :
    iterFiles tree root scope maxMb = [] := by
  rw [iterFiles]
  apply List.filterMap_eq_nil_iff.mpr
  intro pm hpm
  have hshape : WalkShape (resolveScope root scope) pm := by
    rcases hloc : locate tree (resolveScope root scope) with _ | t
    · rw [hloc] at hpm; simp at hpm
    · rw [hloc] at hpm
      exact walkTree_shape (resolveScope root scope) t pm hpm
  rcases hshape with ⟨mid, nm, heq, -⟩
  have hsp : resolveScope root scope <+: pm.1 := by
    rw [heq]
    exact (List.prefix_append _ mid).trans (List.prefix_append _ [nm])
  have hnotin : isWithin root pm.1 = false := by
    rw [isWithin]
    simp only [decide_eq_false_iff_not]
    rintro (hc | hc)
    · exact h2 (hc ▸ hsp)
    · rcases List.prefix_or_prefix_of_prefix hc hsp with h | h
      · rw [isWithin] at h1
        simp only [decide_eq_false_iff_not] at h1
        exact h1 (Or.inr h)
      · exact h2 h
  rw [hnotin]
  rfl

/-- C1 counterexample: `init` with the out-of-root scope `"../evil"`
is not rejected — it returns the success summary, the manifest is
silently empty, and the index files are still written. -/
theorem scope_escape_not_rejected :
    isWithin ["p"] (resolveScope ["p"] (some "../evil")) = false
    ∧ (codeIndexInit escapeTree ["p"] (some "../evil") 10 300 50
        none).files = []
    ∧ (codeIndexInit escapeTree ["p"] (some "../evil") 10 300 50
        none).message = "索引完成：files=0, symbols=0, chunks=0, endpoints=0"
    ∧ (codeIndexInit escapeTree ["p"] (some "../evil") 10 300 50
        none).writes
      = ["files.jsonl", "chunks.jsonl", "endpoints.jsonl", "stats.json"] :=
  ⟨by decide, by decide, by decide, by decide⟩

/-- C1 amended: a scope that resolves outside the project root is
never rejected — `init` always completes and writes the index files.
When the resolved scope is not an ancestor of the root, the per-file
boundary check silently narrows the manifest (and the chunk and
endpoint indexes) to empty and the zero-count success summary is
returned; when it is an ancestor (such as `..`), which also resolves
outside the root, the walk re-enters the root and the files under the
root are still indexed (last two conjuncts, at the escape fixture). -/
theorem scope_escape_amended (tree : FSTree) (root : List String)
    (scope : Option String) (maxMb w o : Nat)
    (h1 : isWithin root (resolveScope root scope) = false)
    (h2 : ¬ resolveScope root scope <+: root) :
    (codeIndexInit tree root scope maxMb w o none).files = []
    ∧ (codeIndexInit tree root scope maxMb w o none).chunks = []
    ∧ (codeIndexInit tree root scope maxMb w o none).endpoints = []
    ∧ (codeIndexInit tree root scope maxMb w o none).message
        = "索引完成：files=0, symbols=0, chunks=0, endpoints=0"
    ∧ (codeIndexInit tree root scope maxMb w o none).writes ≠ []
    ∧ isWithin ["p"] (resolveScope ["p"] (some "..")) = false
    ∧ ((codeIndexInit escapeTree ["p"] (some "..") 10 300 50
        none).files).map (fun r => r.relpath) = [["a.py"]] := by
  have hempty := iterFiles_empty_of_disjoint tree root scope maxMb h1 h2
  have hch : buildChunks tree [] w o = [] := rfl
  have hep : buildEndpoints tree root [] = [] := rfl
  refine ⟨?_, ?_, ?_, ?_, ?_, by decide, by decide⟩
  · simp only [codeIndexInit]
    exact hempty
  · simp only [codeIndexInit]
    rw [hempty, hch]
  · simp only [codeIndexInit]
    rw [hempty, hep]
  · simp only [codeIndexInit]
    rw [hempty, hch, hep]
    decide
  · simp only [codeIndexInit]
    simp

/-- C1 witness: the amended statement at the concrete escape
fixture. -/
theorem scope_escape_amended_witness :
    isWithin ["p"] (resolveScope ["p"] (some "../evil")) = false
    ∧ ¬ resolveScope ["p"] (some "../evil") <+: ["p"]
    ∧ (codeIndexInit escapeTree ["p"] (some "../evil") 10 300 50
        none).files = [] := by
  refine ⟨by decide, by decide, ?_⟩
  exact (scope_escape_amended escapeTree ["p"] (some "../evil") 10 300 50
    (by decide) (by decide)).1

theorem lastIdxWithNorm_eq_none (items : List MemItem) (n : String)
    (h : ∀ it ∈ items, normalizeText it.content ≠ n) :
    lastIdxWithNorm items n = none := by
  induction items with
  | nil => rfl
  | cons it rest ih =>
    rw [lastIdxWithNorm]
    rw [ih (fun x hx => h x (List.mem_cons_of_mem _ hx))]
    rw [if_neg (h it (List.mem_cons_self _ _))]

theorem lastIdxWithNorm_append (items : List MemItem) (x : MemItem)
    (n : String) (hx : normalizeText x.content = n) :
    lastIdxWithNorm (items ++ [x]) n = some items.length := by
  induction items with
  | nil => simp [lastIdxWithNorm, hx]
  | cons it rest ih =>
    rw [List.cons_append, lastIdxWithNorm, ih]
    simp

theorem listModify_append (f : α → α) (l : List α) (x : α) :
    listModify f l.length (l ++ [x]) = l ++ [f x] := by
  induction l with
  | nil => rfl
  | cons y ys ih => simp [listModify, ih]

theorem countNorm_append (l : List MemItem) (x : MemItem) (n : String) :
    countNorm (l ++ [x]) n
      = countNorm l n + (if normalizeText x.content = n then 1 else 0) := by
  by_cases h : normalizeText x.content = n <;>
    simp [countNorm, List.filter_append, h]

/-- C3 counterexample: in a store that already holds two rows whose
contents normalize identically, adding that same normalized content
twice (one extracted candidate per call) leaves two rows, not one —
the dict only updates the last of the duplicates. -/
theorem memory_dedup_claim_false :
    extractCandidates "" "Duplicate fact" 3 = ["Duplicate fact"]
    ∧ countNorm dupStore "duplicate fact" = 2
    ∧ countNorm
        (addFromTurn (addFromTurn dupStore "" "Duplicate fact" none 3 100)
          "" "Duplicate fact" none 3 200) "duplicate fact" = 2 :=
  ⟨by decide, by decide, by decide⟩

/-- C3 amended: when the store holds *no* row with the given
normalized content, adding it twice (one extracted candidate per
call) first appends exactly one row seeded at importance `0.6`, and
the second call leaves exactly that one row with its `lastUsedAt`
updated and its importance raised by the fixed `0.05` increment
capped at `1.0`; pre-duplicated stores keep their duplicates. -/
theorem memory_dedup_amended (items : List MemItem)
    (u fa : String) (sid : Option String) (k : Nat) (c : String)
    (t1 t2 : Nat)
    (hc : extractCandidates u fa k = [c])
    (hn : normalizeText c ≠ "")
    (h0 : countNorm items (normalizeText c) = 0) :
    addFromTurn items u fa sid k t1 = items ++ [freshMemItem c sid t1]
    ∧ countNorm (addFromTurn items u fa sid k t1) (normalizeText c) = 1
    ∧ addFromTurn (addFromTurn items u fa sid k t1) u fa sid k t2
        = items ++ [bumpedMemItem c sid t1 t2]
    ∧ countNorm (addFromTurn (addFromTurn items u fa sid k t1) u fa sid k t2)
        (normalizeText c) = 1
    ∧ impQ 60 = 6/10
    ∧ impQ 65 = min 1 (impQ 60 + 1/20) := by
  have hforall : ∀ it ∈ items, normalizeText it.content ≠ normalizeText c := by
    intro it hit heq
    have hmem : it ∈ items.filter
        (fun it => normalizeText it.content = normalizeText c) :=
      List.mem_filter.mpr ⟨hit, by simpa using heq⟩
    have : (items.filter
        (fun it => normalizeText it.content = normalizeText c)).length ≠ 0 := by
      intro hlen
      rw [List.length_eq_zero] at hlen
      rw [hlen] at hmem
      simp at hmem
    exact this h0
  have hnone : lastIdxWithNorm items (normalizeText c) = none :=
    lastIdxWithNorm_eq_none items _ hforall
  have h1 : addFromTurn items u fa sid k t1
      = items ++ [freshMemItem c sid t1] := by
    rw [addFromTurn, hc]
    simp only [List.isEmpty_cons, List.foldl_cons, List.foldl_nil]
    rw [if_neg (by simp)]
    rw [addStep, if_neg hn, hnone]
    rfl
  have hcount1 : countNorm (addFromTurn items u fa sid k t1)
      (normalizeText c) = 1 := by
    rw [h1, countNorm_append, h0]
    simp [freshMemItem]
  have hbump : bumpItem t2 (freshMemItem c sid t1)
      = bumpedMemItem c sid t1 t2 := by
    rw [bumpItem, freshMemItem, bumpedMemItem]
    norm_num
  have h2 : addFromTurn (addFromTurn items u fa sid k t1) u fa sid k t2
      = items ++ [bumpedMemItem c sid t1 t2] := by
    rw [h1, addFromTurn, hc]
    simp only [List.isEmpty_cons, List.foldl_cons, List.foldl_nil]
    rw [if_neg (by simp)]
    rw [addStep, if_neg hn,
      lastIdxWithNorm_append items _ (normalizeText c) rfl]
    simp only []
    rw [listModify_append, hbump]
  have hcount2 : countNorm
      (addFromTurn (addFromTurn items u fa sid k t1) u fa sid k t2)
      (normalizeText c) = 1 := by
    rw [h2, countNorm_append, h0]
    simp [bumpedMemItem]
  refine ⟨h1, hcount1, h2, hcount2, by norm_num [impQ], ?_⟩
  rw [min_eq_right (by norm_num [impQ])]
  norm_num [impQ]

/-- C3 witness: the amended statement on an empty store. -/
theorem memory_dedup_amended_witness :
    extractCandidates "" "Duplicate fact" 3 = ["Duplicate fact"]
    ∧ normalizeText "Duplicate fact" ≠ ""
    ∧ countNorm [] (normalizeText "Duplicate fact") = 0
    ∧ countNorm
        (addFromTurn (addFromTurn [] "" "Duplicate fact" none 3 100)
          "" "Duplicate fact" none 3 200)
        (normalizeText "Duplicate fact") = 1 := by
  refine ⟨by decide, by decide, by decide, ?_⟩
  exact (memory_dedup_amended [] "" "Duplicate fact" none 3
    "Duplicate fact" 100 200 (by decide) (by decide) (by decide)).2.2.2.1

/-- C9: `retrieve_topk` changes nothing in the store except the
`lastUsedAt` field of the items whose content is in the returned
top-k list; every other field of every item, and every item outside
that set, is returned unchanged and in place. -/
theorem retrieve_frame (items : List MemItem) (q : String) (k now : Nat)
    (top : List String) (items' : List MemItem)
    (h : retrieveTopk items q k now = (top, items')) :
    List.Forall₂ (fun it it' =>
      it'.id = it.id ∧ it'.content = it.content ∧ it'.tags = it.tags
      ∧ it'.importance = it.importance ∧ it'.createdAt = it.createdAt
      ∧ it'.sessionId = it.sessionId ∧ it'.source = it.source
      ∧ it'.lastUsedAt
          = (if it.content ∈ top then some now else it.lastUsedAt))
      items items' := by
  have hid : ∀ (tp : List String), (∀ x ∈ items, x.content ∉ tp) →
      List.Forall₂ (fun it it' =>
        it'.id = it.id ∧ it'.content = it.content ∧ it'.tags = it.tags
        ∧ it'.importance = it.importance ∧ it'.createdAt = it.createdAt
        ∧ it'.sessionId = it.sessionId ∧ it'.source = it.source
        ∧ it'.lastUsedAt
            = (if it.content ∈ tp then some now else it.lastUsedAt))
        items items := by
    intro tp htp
    refine List.forall₂_same.mpr ?_
    intro x hx
    refine ⟨rfl, rfl, rfl, rfl, rfl, rfl, rfl, ?_⟩
    rw [if_neg (htp x hx)]
  rw [retrieveTopk] at h
  by_cases hearly : items.isEmpty ∨ pyStrip q = ""
  · rw [if_pos hearly] at h
    injection h with hA hB
    subst hA
    subst hB
    exact hid [] (by simp)
  · rw [if_neg hearly] at h
    by_cases htok : tokenSet q = []
    · rw [if_pos htok] at h
      injection h with hA hB
      subst hA
      subst hB
      exact hid [] (by simp)
    · rw [if_neg htok] at h
      simp only [] at h
      set tp := ((sortDescI Prod.fst (items.filterMap (fun it =>
        if 0 < memScoreS now q it then some (memScoreS now q it, it.content)
        else none))).take k).map Prod.snd with htp
      by_cases hte : tp.isEmpty
      · rw [if_pos hte] at h
        injection h with hA hB
        subst hA
        subst hB
        exact hid tp (by
          intro x hx hc
          rw [List.isEmpty_iff] at hte
          rw [hte] at hc
          simp at hc)
      · rw [if_neg hte] at h
        injection h with hA hB
        subst hA
        subst hB
        refine List.forall₂_map_right_iff.mpr ?_
        refine List.forall₂_same.mpr ?_
        intro x hx
        by_cases hin : tp.contains x.content
        · have hmem : x.content ∈ tp := by simpa using hin
          simp [hin, hmem]
        · have hmem : x.content ∉ tp := by simpa using hin
          simp [hin, hmem]

theorem recencyT_ge_one (now : Nat) (l c : Option Nat) :
    1 ≤ recencyT now l c := by
  rw [recencyT]
  split_ifs <;> norm_num

theorem recencyT_le_ten (now : Nat) (l c : Option Nat) :
    recencyT now l c ≤ 10 := by
  rw [recencyT]
  split_ifs <;> norm_num

theorem recencyT_refresh (now : Nat) (c : Option Nat) :
    recencyT now (some now) c = 10 := by
  rw [recencyT]
  simp

/-- The returned component of `retrieve_topk`, as one expression. -/
theorem retrieveTopk_fst (items : List MemItem) (q : String) (k now : Nat) :
    (retrieveTopk items q k now).1
    = if items.isEmpty ∨ pyStrip q = "" then []
      else if tokenSet q = [] then []
      else ((sortDescI Prod.fst (items.filterMap (fun it =>
        if 0 < memScoreS now q it then some (memScoreS now q it, it.content)
        else none))).take k).map Prod.snd := by
  rw [retrieveTopk]
  by_cases h1 : items.isEmpty ∨ pyStrip q = ""
  · rw [if_pos h1, if_pos h1]
  · rw [if_neg h1, if_neg h1]
    by_cases h2 : tokenSet q = []
    · rw [if_pos h2, if_pos h2]
    · rw [if_neg h2, if_neg h2]
      simp only [apply_ite Prod.fst]
      simp

/-- The integer-scaled ranking coincides with the rational-formula
ranking (the scale `2000` is positive). -/
theorem retrieveTopk_fst_eq_spec (items : List MemItem) (q : String)
    (k now : Nat) :
    (retrieveTopk items q k now).1 = specRetrieveNoVec items q k now := by
  rw [retrieveTopk_fst, specRetrieveNoVec]
  by_cases h1 : items.isEmpty ∨ pyStrip q = ""
  · rw [if_pos h1, if_pos h1]
  · rw [if_neg h1, if_neg h1]
    by_cases h2 : tokenSet q = []
    · rw [if_pos h2, if_pos h2]
    · rw [if_neg h2, if_neg h2]
      have hmap : items.filterMap (fun it =>
          if 0 < memScoreQ now q it
          then some (memScoreQ now q it, it.content) else none)
        = (items.filterMap (fun it =>
            if 0 < memScoreS now q it
            then some (memScoreS now q it, it.content) else none)).map
          (fun p => ((p.1 : ℚ) / 2000, p.2)) := by
        rw [List.map_filterMap]
        refine List.filterMap_congr ?_
        intro it _
        by_cases hp : 0 < memScoreS now q it
        · rw [if_pos hp, if_pos ((memScoreS_pos_iff now q it).mp hp)]
          have : ((memScoreS now q it : ℚ)) / 2000 = memScoreQ now q it := by
            rw [memScoreQ_eq]
            ring
          simp [this]
        · rw [if_neg hp,
            if_neg (fun hq => hp ((memScoreS_pos_iff now q it).mpr hq))]
          simp
      rw [hmap]
      rw [show sortDescQ Prod.fst ((items.filterMap (fun it =>
          if 0 < memScoreS now q it
          then some (memScoreS now q it, it.content) else none)).map
          (fun p => ((p.1 : ℚ) / 2000, p.2)))
        = (sortDescI Prod.fst (items.filterMap (fun it =>
            if 0 < memScoreS now q it
            then some (memScoreS now q it, it.content) else none))).map
          (fun p => ((p.1 : ℚ) / 2000, p.2)) from
        sSort_map _ _ _ (fun a b => by
          refine decide_eq_decide.mpr ?_
          constructor
          · intro h
            have h' := (div_le_div_iff_of_pos_right
              (show (0 : ℚ) < 2000 by norm_num)).mp h
            exact_mod_cast h'
          · intro h
            refine (div_le_div_iff_of_pos_right
              (show (0 : ℚ) < 2000 by norm_num)).mpr ?_
            exact_mod_cast h) _]
      rw [← List.map_take, List.map_map]
      simp [Function.comp_def]

/-- C5 counterexample: the `lastUsedAt` refresh *can* alter the
relative ranking of the same query: after the first call refreshes
both items, their scores tie and the stable sort falls back to store
order, swapping the two results. -/
theorem retrieve_refresh_claim_false :
    (retrieveTopk [memItemStale, memItemFresh] "alpha" 2 2592001).1
      = ["alpha new", "alpha old"]
    ∧ (retrieveTopk
        (retrieveTopk [memItemStale, memItemFresh] "alpha" 2 2592001).2
        "alpha" 2 2592001).1
      = ["alpha old", "alpha new"] :=
  ⟨by decide, by decide⟩

/-- C5 amended: with the vector backend unavailable, `retrieve_topk`
returns exactly the spec ranking by
`0.25*importance + 0.15*recency + 0.2*overlap`; every returned
content comes from a stored item of positive score; the result is
non-empty whenever `k ≥ 1`, the query is non-blank and some stored
item of non-negative importance shares a keyword with it; and the
`lastUsedAt` refresh never lowers an item score for the same query —
it may however create ties, which the stable sort breaks by store
order (see the counterexample). -/
theorem retrieve_degraded_amended (items : List MemItem) (q : String)
    (k now : Nat) :
    (retrieveTopk items q k now).1 = specRetrieveNoVec items q k now
    ∧ (∀ c ∈ (retrieveTopk items q k now).1,
        ∃ it ∈ items, it.content = c ∧ 0 < memScoreQ now q it)
    ∧ ((1 ≤ k ∧ pyStrip q ≠ ""
        ∧ ∃ it ∈ items, 0 ≤ it.importance ∧ 1 ≤ overlapCount q it.content)
        → (retrieveTopk items q k now).1 ≠ [])
    ∧ (∀ it : MemItem,
        memScoreQ now q it
          ≤ memScoreQ now q { it with lastUsedAt := some now }) := by
  refine ⟨retrieveTopk_fst_eq_spec items q k now, ?_, ?_, ?_⟩
  · intro c hc
    rw [retrieveTopk_fst] at hc
    by_cases h1 : items.isEmpty ∨ pyStrip q = ""
    · rw [if_pos h1] at hc; simp at hc
    · rw [if_neg h1] at hc
      by_cases h2 : tokenSet q = []
      · rw [if_pos h2] at hc; simp at hc
      · rw [if_neg h2] at hc
        rcases List.mem_map.mp hc with ⟨p, hp, rfl⟩
        have hp2 := (sortDescI_perm _ _).mem_iff.mp (List.mem_of_mem_take hp)
        rcases List.mem_filterMap.mp hp2 with ⟨it, hit, hsome⟩
        by_cases hpos : 0 < memScoreS now q it
        · rw [if_pos hpos] at hsome
          injection hsome with hsome
          refine ⟨it, hit, ?_, (memScoreS_pos_iff now q it).mp hpos⟩
          rw [← hsome]
        · rw [if_neg hpos] at hsome
          simp at hsome
  · rintro ⟨hk, hq, it, hit, himp, hov⟩
    rw [retrieveTopk_fst]
    rw [if_neg (by
      rintro (h | h)
      · rw [List.isEmpty_iff] at h
        rw [h] at hit
        simp at hit
      · exact hq h)]
    rw [if_neg (by
      intro h
      rw [overlapCount, h] at hov
      simp at hov)]
    have hS : 0 < memScoreS now q it := by
      rw [memScoreS]
      have h1 := recencyT_ge_one now it.lastUsedAt it.createdAt
      have h2 : (1 : Int) ≤ (overlapCount q it.content : Int) := by
        exact_mod_cast hov
      omega
    have hmem : (memScoreS now q it, it.content) ∈ items.filterMap
        (fun it => if 0 < memScoreS now q it
          then some (memScoreS now q it, it.content) else none) :=
      List.mem_filterMap.mpr ⟨it, hit, by rw [if_pos hS]⟩
    have hne : items.filterMap (fun it => if 0 < memScoreS now q it
        then some (memScoreS now q it, it.content) else none) ≠ [] :=
      List.ne_nil_of_mem hmem
    have hsort : sortDescI Prod.fst (items.filterMap
        (fun it => if 0 < memScoreS now q it
          then some (memScoreS now q it, it.content) else none)) ≠ [] := by
      intro hcon
      have hperm := sortDescI_perm Prod.fst (items.filterMap
        (fun it => if 0 < memScoreS now q it
          then some (memScoreS now q it, it.content) else none))
      rw [hcon] at hperm
      exact hne hperm.symm.eq_nil
    intro hcon
    rw [List.map_eq_nil_iff, List.take_eq_nil_iff] at hcon
    rcases hcon with h | h
    all_goals first
    | omega
    | exact hsort h
  · intro it
    have h1 : recQ now (some now) it.createdAt = 1 := by
      rw [recQ, recencyT_refresh]
      norm_num
    have h2 : recQ now it.lastUsedAt it.createdAt ≤ 1 := by
      rw [recQ]
      rw [div_le_one (by norm_num)]
      exact_mod_cast recencyT_le_ten now it.lastUsedAt it.createdAt
    have h3 : ({ it with lastUsedAt := some now } : MemItem).importance
        = it.importance := rfl
    have h4 : ({ it with lastUsedAt := some now } : MemItem).content
        = it.content := rfl
    have h5 : ({ it with lastUsedAt := some now } : MemItem).createdAt
        = it.createdAt := rfl
    have h6 : ({ it with lastUsedAt := some now } : MemItem).lastUsedAt
        = some now := rfl
    rw [memScoreQ, memScoreQ, h3, h4, h5, h6]
    linarith [h1, h2]

/-- C5 witness: the amended statement on a concrete two-item store. -/
theorem retrieve_degraded_amended_witness :
    ((1 : Nat) ≤ 2 ∧ pyStrip "alpha" ≠ ""
      ∧ ∃ it ∈ [memItemStale, memItemFresh],
          0 ≤ it.importance ∧ 1 ≤ overlapCount "alpha" it.content)
    ∧ (retrieveTopk [memItemStale, memItemFresh] "alpha" 2 2592001).1
        ≠ [] := by
  refine ⟨⟨by decide, by decide,
    memItemFresh, by decide, by decide, by decide⟩, ?_⟩
  exact (retrieve_degraded_amended [memItemStale, memItemFresh]
    "alpha" 2 2592001).2.2.1
    ⟨by decide, by decide, memItemFresh, by decide, by decide, by decide⟩

/-- C6 counterexample: the manifest builder compares only the lexical
`abspath`: a symlinked file inside the root whose resolved target is
outside the scan root is still emitted as a record. -/
theorem manifest_symlink_claim_false :
    (iterFiles symlinkTree ["p"] none 10).map (fun r => r.path)
      = [["p", "link.py"]]
    ∧ realpathFS symlinkTree ["p", "link.py"] = ["outside", "t.py"]
    ∧ isWithin ["p"] (realpathFS symlinkTree ["p", "link.py"]) = false :=
  ⟨by decide, by decide, by decide⟩

/-- C6 amended: every emitted record's (lexical) absolute path lies
inside the project root, its relative path re-joins to the absolute
path (no escape via `..`), and its path extends the resolved scan
root with no deny-listed directory component strictly below it;
symlink resolution is *not* applied by the manifest builder — only
the read/write tools (`ensure_within_project`) canonicalize. -/
theorem manifest_records_amended (tree : FSTree) (root : List String)
    (scope : Option String) (maxMb : Nat) :
    ∀ rec ∈ iterFiles tree root scope maxMb,
      isWithin root rec.path
      ∧ (rec.path = root ∨ rec.path = root ++ rec.relpath)
      ∧ ∃ mid nm, rec.path = resolveScope root scope ++ mid ++ [nm]
          ∧ ∀ d ∈ mid, ¬ IGNORED_DIRS.contains d := by
  intro rec hrec
  rw [iterFiles] at hrec
  rcases List.mem_filterMap.mp hrec with ⟨pm, hpm, hsome⟩
  have hshape : WalkShape (resolveScope root scope) pm := by
    rcases hloc : locate tree (resolveScope root scope) with _ | t
    · rw [hloc] at hpm; simp at hpm
    · rw [hloc] at hpm
      exact walkTree_shape (resolveScope root scope) t pm hpm
  by_cases hin : isWithin root pm.1
  case neg =>
    rw [if_pos (by simpa using hin)] at hsome
    simp at hsome
  case pos =>
    rw [if_neg (by simpa using hin)] at hsome
    by_cases hstat : pm.2.statOk
    case neg =>
      rw [if_pos (by simpa using hstat)] at hsome
      simp at hsome
    case pos =>
      rw [if_neg (by simpa using hstat)] at hsome
      by_cases hsize : maxMb * 1048576 < pm.2.size
      case pos =>
        rw [if_pos hsize] at hsome
        simp at hsome
      case neg =>
        rw [if_neg hsize] at hsome
        simp only [Option.some.injEq] at hsome
        have hpath : rec.path = pm.1 := by rw [← hsome]
        have hrel : rec.relpath = pyRelpath pm.1 root := by rw [← hsome]
        refine ⟨hpath ▸ hin, ?_, ?_⟩
        · rw [hpath, hrel]
          rw [isWithin] at hin
          simp only [decide_eq_true_eq] at hin
          rcases hin with heq | hpre
          · exact Or.inl heq
          · rcases hpre with ⟨t, ht⟩
            by_cases hroot : pm.1 = root
            · exact Or.inl hroot
            · refine Or.inr ?_
              rw [pyRelpath, if_pos ⟨t, ht⟩, if_neg hroot]
              rw [← ht, List.drop_left]
        · rcases hshape with ⟨mid, nm, heq, hmid⟩
          exact ⟨mid, nm, hpath ▸ heq, hmid⟩

/-- C6 witness: the amended statement at the symlink fixture (the
lexical path is inside the root even though its resolution is not). -/
theorem manifest_records_amended_witness :
    (∃ rec, rec ∈ iterFiles symlinkTree ["p"] none 10
      ∧ rec.path = ["p", "link.py"])
    ∧ isWithin ["p"] (["p", "link.py"] : List String) = true := by
  constructor
  · exact ⟨symlinkRec, by decide, rfl⟩
  · have h := manifest_records_amended symlinkTree ["p"] none 10
      symlinkRec (by decide)
    simpa using h.1

theorem dedupByKey_sublist (seen : List (List String × Option Nat))
    (l : List (Nat × MixedItem)) : (dedupByKey seen l).Sublist l := by
  induction l generalizing seen with
  | nil => simp [dedupByKey]
  | cons x rest ih =>
    rw [dedupByKey]
    by_cases h : seen.contains (mixedKey x.2)
    · rw [if_pos h]
      exact (ih seen).cons x
    · rw [if_neg h]
      exact (ih _).cons₂ x

theorem dedupByKey_nodup (seen : List (List String × Option Nat))
    (l : List (Nat × MixedItem)) :
    (dedupByKey seen l).Pairwise
      (fun a b => mixedKey a.2 ≠ mixedKey b.2)
    ∧ ∀ x ∈ dedupByKey seen l, mixedKey x.2 ∉ seen := by
  induction l generalizing seen with
  | nil => simp [dedupByKey]
  | cons x rest ih =>
    rw [dedupByKey]
    by_cases h : seen.contains (mixedKey x.2)
    · rw [if_pos h]
      exact ih seen
    · rw [if_neg h]
      rcases ih (mixedKey x.2 :: seen) with ⟨hpw, hseen⟩
      refine ⟨List.pairwise_cons.mpr ⟨?_, hpw⟩, ?_⟩
      · intro y hy heq
        exact hseen y hy (heq ▸ List.mem_cons_self _ _)
      · intro y hy
        rcases List.mem_cons.mp hy with rfl | hy
        · simpa using h
        · intro hc
          exact hseen y hy (List.mem_cons_of_mem _ hc)

theorem mixedWeight_rank (a b : MixedItem) :
    mixedWeightS b ≤ mixedWeightS a ↔ mixedRank a ≤ mixedRank b := by
  cases a <;> cases b <;> simp [mixedWeightS, mixedRank]

theorem mixedWeight_le_ten (a : MixedItem) : mixedWeightS a ≤ 10 := by
  cases a <;> simp [mixedWeightS]

theorem mixedWeight_ten_rank (a : MixedItem) (h : mixedWeightS a = 10) :
    mixedRank a = 0 := by
  cases a <;> simp [mixedWeightS, mixedRank] at h ⊢

/-- C4: whenever the symbol search of a mixed query returns at least
one hit (and the chunk and file searches do too), `mixed_search`
succeeds, its result is non-empty, begins with a symbols hit, is
ordered by the fixed source priority symbols → chunks → files
regardless of the individual scores, and its
`(path, line-or-start-line)` keys are pairwise distinct. -/
theorem mixed_search_ordering (ctx : ToolsCtx) (q : String) (topk : Int)
    (symOut : List SymHit)
    (hsym : symbolsSearch (ctxReal ctx) (ctxRead ctx) ctx.proj
      ctx.symbolsIdx q none none 1 (intMax 5 (intFloorDiv topk 3))
      = Except.ok symOut)
    (hs : symOut ≠ [])
    (hc : chunksSearch ctx.chunksIdx q none none
      (intMax 5 (intFloorDiv topk 2)) ≠ [])
    (hf : filesSearch ctx.filesIdx q none none
      (intMax 5 (intFloorDiv topk 3)) ≠ []) :
    ∃ out, mixedSearch ctx q topk = Except.ok out
      ∧ out ≠ []
      ∧ (∀ h ∈ out.head?, mixedRank h = 0)
      ∧ out.Pairwise (fun a b => mixedRank a ≤ mixedRank b)
      ∧ (out.map mixedKey).Pairwise (fun x y => x ≠ y) := by
  rcases symOut with _ | ⟨s0, srest⟩
  · exact absurd rfl hs
  set all : List (Nat × MixedItem) :=
    (s0 :: srest).map (fun h => (mixedWeightS (MixedItem.sym h),
        MixedItem.sym h))
      ++ (chunksSearch ctx.chunksIdx q none none
          (intMax 5 (intFloorDiv topk 2))).map
        (fun h => (mixedWeightS (MixedItem.chk h), MixedItem.chk h))
      ++ (filesSearch ctx.filesIdx q none none
          (intMax 5 (intFloorDiv topk 3))).map
        (fun h => (mixedWeightS (MixedItem.fil h), MixedItem.fil h))
    with hall_def
  have hout : mixedSearch ctx q topk = Except.ok
      (((sortDescN Prod.fst (dedupByKey [] all)).take (capOf topk)).map
        Prod.snd) := by
    rw [mixedSearch, hsym]
    rfl
  have hwall : ∀ p ∈ all, p.1 = mixedWeightS p.2 := by
    intro p hp
    rw [hall_def] at hp
    rcases List.mem_append.mp hp with hp | hp
    · rcases List.mem_append.mp hp with hp | hp
      · rcases List.mem_map.mp hp with ⟨h, _, rfl⟩; rfl
      · rcases List.mem_map.mp hp with ⟨h, _, rfl⟩; rfl
    · rcases List.mem_map.mp hp with ⟨h, _, rfl⟩; rfl
  have hdsub := dedupByKey_sublist [] all
  have hsorted := sortDescN_pairwise (Prod.fst
    (β := MixedItem)) (dedupByKey [] all)
  have hperm := sortDescN_perm (Prod.fst (β := MixedItem))
    (dedupByKey [] all)
  have hwsort : ∀ p ∈ sortDescN Prod.fst (dedupByKey [] all),
      p.1 = mixedWeightS p.2 := by
    intro p hp
    exact hwall p (hdsub.mem (hperm.mem_iff.mp hp))
  -- the dedup keeps the very first element
  have hdhead : ∃ rest', dedupByKey [] all
      = (mixedWeightS (MixedItem.sym s0), MixedItem.sym s0) :: rest' := by
    rw [hall_def]
    simp only [List.map_cons, List.cons_append, dedupByKey]
    rw [if_neg (by simp)]
    exact ⟨_, rfl⟩
  rcases hdhead with ⟨rest', hdhead⟩
  have hmemten : (mixedWeightS (MixedItem.sym s0), MixedItem.sym s0)
      ∈ sortDescN Prod.fst (dedupByKey [] all) := by
    rw [hperm.mem_iff, hdhead]
    exact List.mem_cons_self _ _
  have hne : sortDescN (Prod.fst (β := MixedItem))
      (dedupByKey [] all) ≠ [] :=
    List.ne_nil_of_mem hmemten
  rcases hsort_ne : sortDescN (Prod.fst (β := MixedItem))
      (dedupByKey [] all) with _ | ⟨p0, prest⟩
  · exact absurd hsort_ne hne
  have hcap : ∃ m, capOf topk = m + 1 := by
    rw [capOf]
    by_cases h : topk ≤ 1
    · rw [if_pos h]
      exact ⟨0, rfl⟩
    · rw [if_neg h]
      refine ⟨(topk - 1).toNat, ?_⟩
      omega
  rcases hcap with ⟨m, hcap⟩
  refine ⟨_, hout, ?_, ?_, ?_, ?_⟩
  · rw [hsort_ne, hcap]
    simp
  · intro h hh
    rw [hsort_ne, hcap] at hh
    simp only [List.take_succ_cons, List.map_cons, List.head?_cons,
      Option.mem_def, Option.some.injEq] at hh
    have hp0w : p0.1 = mixedWeightS p0.2 :=
      hwsort p0 (by
        rw [hsort_ne]
        exact List.mem_cons_self _ _)
    rw [hsort_ne] at hmemten hsorted
    have hge : 10 ≤ p0.1 := by
      rcases List.mem_cons.mp hmemten with heq | hmem
      · rw [← heq]
        simp [mixedWeightS]
      · have hpw := (List.pairwise_cons.mp hsorted).1 _ hmem
        simpa [mixedWeightS] using hpw
    have h10 : mixedWeightS p0.2 = 10 :=
      le_antisymm (mixedWeight_le_ten p0.2) (hp0w ▸ hge)
    rw [← hh]
    exact mixedWeight_ten_rank p0.2 h10
  · refine List.pairwise_map.mpr ?_
    refine List.Pairwise.imp_of_mem ?_
      (hsorted.sublist (List.take_sublist (capOf topk) _))
    intro a b ha hb hle
    have ha2 := (List.take_sublist (capOf topk) _).subset ha
    have hb2 := (List.take_sublist (capOf topk) _).subset hb
    rw [← mixedWeight_rank, ← hwsort a ha2, ← hwsort b hb2]
    exact hle
  · have hkeys := (dedupByKey_nodup [] all).1
    have hkeys2 : (sortDescN Prod.fst (dedupByKey [] all)).Pairwise
        (fun a b => mixedKey a.2 ≠ mixedKey b.2) := by
      refine (List.Perm.pairwise_iff ?_ hperm).mpr hkeys
      intro a b h
      exact (h ∘ Eq.symm)
    have hkeys3 := hkeys2.sublist (List.take_sublist (capOf topk) _)
    rw [List.map_map]
    refine List.pairwise_map.mpr ?_
    exact hkeys3.imp (fun h => h)

/-- Witness: the fixture index satisfies every hypothesis of the C4
theorem at query `alpha`, `top_k = 5`, and the conclusion holds. -/

theorem mixed_search_ordering_witness :
    symbolsSearch (ctxReal mixedCtx) (ctxRead mixedCtx) mixedCtx.proj
      mixedCtx.symbolsIdx "alpha" none none 1 (intMax 5 (intFloorDiv 5 3))
      = Except.ok [mixedSymHit]
    ∧ ∃ out, mixedSearch mixedCtx "alpha" 5 = Except.ok out
      ∧ out ≠ []
      ∧ (∀ h ∈ out.head?, mixedRank h = 0)
      ∧ out.Pairwise (fun a b => mixedRank a ≤ mixedRank b)
      ∧ (out.map mixedKey).Pairwise (fun x y => x ≠ y) :=
  ⟨by rfl, mixed_search_ordering mixedCtx "alpha" 5 [mixedSymHit]
    (by rfl) (by decide) (by decide) (by decide)⟩

theorem lenTakeMapLe {α β : Type} (f : α → β) (n : Nat) (l : List α) :
    ((l.take n).map f).length ≤ n := by
  simp only [List.length_map, List.length_take]
  omega

/-- C10: `files_search`, `symbols_search`, `chunks_search` and
`mixed_search` indeed cap their result lists at `max(1, top_k)`, a
bound that is always at least `1` (so `top_k ≤ 0` still returns up to
one item, as the fixture shows at `top_k = 0`) — but the claim fails
for `endpoints_search`: `_index_paths` defines no `"endpoints"` key,
so every call raises a `TypeError` instead of returning a list. -/
theorem search_caps :
    (∀ ctx q lang pp topk,
      (filesSearchCtx ctx q lang pp topk).length ≤ capOf topk)
    ∧ (∀ ctx q lang pp topk,
      (chunksSearchCtx ctx q lang pp topk).length ≤ capOf topk)
    ∧ (∀ ctx n kd lang cl topk,
      okLength (symbolsSearchCtx ctx n kd lang cl topk) ≤ capOf topk)
    ∧ (∀ ctx q topk, okLength (mixedSearch ctx q topk) ≤ capOf topk)
    ∧ (∀ topk : Int, 1 ≤ capOf topk ∧ (capOf topk : Int) = intMax 1 topk)
    ∧ (filesSearchCtx mixedCtx "" none none 0).length = 1
    ∧ (∀ ctx q method pp topk,
      ∃ e, endpointsSearchCtx ctx q method pp topk = Except.error e) := by
  refine ⟨?_, ?_, ?_, ?_, ?_, ?_, ?_⟩
  · intro ctx q lang pp topk
    rw [filesSearchCtx, filesSearch]
    exact lenTakeMapLe _ _ _
  · intro ctx q lang pp topk
    rw [chunksSearchCtx, chunksSearch]
    by_cases h : ctx.chunksIdx.isEmpty
    · rw [if_pos h]
      exact Nat.zero_le _
    · rw [if_neg h]
      exact lenTakeMapLe _ _ _
  · intro ctx n kd lang cl topk
    rw [symbolsSearchCtx, symbolsSearch]
    by_cases h : ctx.symbolsIdx.isEmpty
    · rw [if_pos h]
      exact Nat.zero_le _
    · rw [if_neg h]
      rcases hcoll : symbolsCollect (ctxReal ctx) (ctxRead ctx) ctx.proj
          (strLower n) kd lang cl ctx.symbolsIdx with e | r
      · exact Nat.zero_le _
      · exact lenTakeMapLe _ _ _
  · intro ctx q topk
    rw [mixedSearch]
    rcases hsym : symbolsSearch (ctxReal ctx) (ctxRead ctx) ctx.proj
        ctx.symbolsIdx q none none 1 (intMax 5 (intFloorDiv topk 3))
      with e | sym
    · exact Nat.zero_le _
    · exact lenTakeMapLe _ _ _
  · intro topk
    rw [capOf, intMax]
    by_cases h : topk ≤ 1
    · rw [if_pos h]
      by_cases h2 : (1 : Int) ≤ topk
      · rw [if_pos h2]
        exact ⟨by omega, by omega⟩
      · rw [if_neg h2]
        exact ⟨by omega, by omega⟩
    · rw [if_neg h, if_pos (by omega : (1 : Int) ≤ topk)]
      exact ⟨by omega, by omega⟩
  · decide
  · intro ctx q method pp topk
    exact ⟨_, rfl⟩

/-- Witness: the C9 frame property at the concrete two-item store,
where both contents make the returned top list and only their
`lastUsedAt` changes. -/
theorem retrieve_frame_witness :
    retrieveTopk [memItemStale, memItemFresh] "alpha" 2 2592001
      = (["alpha new", "alpha old"], [refreshedStale, refreshedFresh])
    ∧ List.Forall₂ (fun it it' =>
        it'.id = it.id ∧ it'.content = it.content ∧ it'.tags = it.tags
        ∧ it'.importance = it.importance ∧ it'.createdAt = it.createdAt
        ∧ it'.sessionId = it.sessionId ∧ it'.source = it.source
        ∧ it'.lastUsedAt
            = (if it.content ∈ ["alpha new", "alpha old"]
               then some 2592001 else it.lastUsedAt))
        [memItemStale, memItemFresh] [refreshedStale, refreshedFresh] :=
  ⟨by decide, retrieve_frame [memItemStale, memItemFresh] "alpha" 2 2592001
    ["alpha new", "alpha old"] [refreshedStale, refreshedFresh] (by decide)⟩

end CodeAgent
